import Mathlib

/-!
Verification of the yaml_parser repository (src/yaml.hpp, src/yaml.cpp):
a shallow embedding in Lean 4 of the value model (`YamlValue`), the
serializer (`YamlValue::serializeValue`), the tokenizer (`Scanner`) and the
recursive-descent parser (`Parser`), together with theorems settling the
frozen claims about them.

Modelling conventions, fixed once for the whole file:

* Text is a `List Char`.  The C++ code works on `std::string` (bytes); all
  inputs relevant here are ASCII, where byte order and `Char` order agree.
* The `double` payload of a Number is modelled by an exact decimal value
  `Dec` (an integer mantissa `m` and a power-of-ten scale `e`, denoting
  `m / 10^e`).  `std::stod` on the scanner's number grammar is the exact
  decimal conversion followed by a rounding to binary that this model
  omits; `operator==` on doubles becomes exact equality of the denoted
  rationals.  Every concrete number any theorem below evaluates is exactly
  representable as a double, where the model and IEEE agree.
* `throw YamlException(msg, line, col)` becomes `Except.error ⟨msg, line, col⟩`.
* The scanner's unbounded `while` loop and the parser's mutual recursion
  are driven by an explicit fuel parameter; running out of fuel is a
  distinguished outcome (`none`, or the `noFuel` error) that the theorems
  either rule out or quantify away with a sufficient-fuel hypothesis.
-/

namespace Y

/-- The `YamlType` enum of src/yaml.hpp. -/
inductive YamlType where
  | NIL | BOOLEAN | NUMBER | STRING | SEQUENCE | MAPPING
  deriving DecidableEq, Repr

/-- `10 ^ n` as an integer, written out structurally so that every proof
and every `decide` can unfold it. -/
def pow10 : Nat → Int
  | 0 => 1
  | n + 1 => 10 * pow10 n

/-- The Number payload: the exact decimal value `m / 10^e` a number token
denotes.  Models the C++ `double numberValue_` (see the file comment). -/
structure Dec where
  m : Int
  e : Nat
  deriving DecidableEq, Repr

/-- The rational a `Dec` denotes (specification-level only; no code
evaluates this). -/
def Dec.denote (d : Dec) : ℚ := (d.m : ℚ) / ((pow10 d.e : ℤ) : ℚ)

/-- `double == double` on the payloads: exact equality of denoted values,
decided by cross multiplication. -/
def Dec.numEq (a b : Dec) : Bool := a.m * pow10 b.e == b.m * pow10 a.e

mutual

/-- The `YamlValue` variant of src/yaml.hpp: exactly one of Nil, Boolean,
Number, String, Sequence, Mapping.  `Sequence`/`Mapping` own their
children; `Mapping` is the key-sorted `std::map`, kept here as a
key-sorted entry list (`mapInsert` below maintains the order). -/
inductive Value where
  | nil : Value
  | boolean (b : Bool) : Value
  | number (d : Dec) : Value
  | str (s : List Char) : Value
  | sequence (items : ValueList) : Value
  | mapping (entries : EntryList) : Value
  deriving DecidableEq, Repr

/-- `std::vector<YamlValue>` (the `Sequence` payload). -/
inductive ValueList where
  | nil : ValueList
  | cons (hd : Value) (tl : ValueList) : ValueList
  deriving DecidableEq, Repr

/-- `std::map<std::string, YamlValue>` (the `Mapping` payload), as its
in-order entry sequence. -/
inductive EntryList where
  | nil : EntryList
  | cons (key : List Char) (val : Value) (tl : EntryList) : EntryList
  deriving DecidableEq, Repr

end

/-- `YamlValue::getType` (the tag). -/
def Value.typeOf : Value → YamlType
  | .nil => .NIL
  | .boolean _ => .BOOLEAN
  | .number _ => .NUMBER
  | .str _ => .STRING
  | .sequence _ => .SEQUENCE
  | .mapping _ => .MAPPING

/-- `YamlValue::isMapping`. -/
def Value.isMapping (v : Value) : Bool := v.typeOf == .MAPPING

/-- `YamlValue::isSequence`. -/
def Value.isSequence (v : Value) : Bool := v.typeOf == .SEQUENCE

/-- `YamlValue::isNumber`. -/
def Value.isNumber (v : Value) : Bool := v.typeOf == .NUMBER

/-- `YamlValue::isNil`. -/
def Value.isNil (v : Value) : Bool := v.typeOf == .NIL

/-- `operator<` of `std::string` (`std::map`'s key order): lexicographic
comparison, byte by byte. -/
def charsLt : List Char → List Char → Bool
  | _, [] => false
  | [], _ :: _ => true
  | a :: as, b :: bs => if a = b then charsLt as bs else decide (a < b)

def ValueList.length : ValueList → Nat
  | .nil => 0
  | .cons _ tl => tl.length + 1

def EntryList.length : EntryList → Nat
  | .nil => 0
  | .cons _ _ tl => tl.length + 1

/-- `push_back` on a `std::vector<YamlValue>`. -/
def ValueList.push : ValueList → Value → ValueList
  | .nil, v => .cons v .nil
  | .cons h t, v => .cons h (t.push v)

/-- `map[key] = v` on the key-sorted `std::map`: insert or assign, keeping
the entries sorted by `charsLt` (last write wins on duplicate keys). -/
def mapInsert : EntryList → List Char → Value → EntryList
  | .nil, k, v => .cons k v .nil
  | .cons k0 v0 tl, k, v =>
    if charsLt k k0 then .cons k v (.cons k0 v0 tl)
    else if k = k0 then .cons k0 v tl
    else .cons k0 v0 (mapInsert tl k v)

/-- `mappingValue_->find(key)` on the entry list. -/
def mapFind : EntryList → List Char → Option Value
  | .nil, _ => none
  | .cons k0 v0 tl, k => if k = k0 then some v0 else mapFind tl k

/-- The keys of a mapping, in order. -/
def EntryList.keys : EntryList → List (List Char)
  | .nil => []
  | .cons k _ tl => k :: tl.keys

mutual

/-- `YamlValue::operator==` (yaml.cpp lines 493-514): tags must agree,
then the payloads are compared — doubles by `==` (here `Dec.numEq`),
strings, vectors and maps element-wise. -/
def Value.yamlEq : Value → Value → Bool
  | .nil, .nil => true
  | .boolean a, .boolean b => a == b
  | .number a, .number b => a.numEq b
  | .str a, .str b => a == b
  | .sequence a, .sequence b => Value.yamlEqL a b
  | .mapping a, .mapping b => Value.yamlEqM a b
  | _, _ => false

/-- `operator==` on `std::vector<YamlValue>`: same length, elements equal
in order. -/
def Value.yamlEqL : ValueList → ValueList → Bool
  | .nil, .nil => true
  | .cons a as, .cons b bs => a.yamlEq b && Value.yamlEqL as bs
  | _, _ => false

/-- `operator==` on `std::map<std::string, YamlValue>`: same entry
sequences (keys and values), in order. -/
def Value.yamlEqM : EntryList → EntryList → Bool
  | .nil, .nil => true
  | .cons k a as, .cons k2 b bs => k == k2 && a.yamlEq b && Value.yamlEqM as bs
  | _, _ => false

end

/-- `YamlValue::contains` (yaml.cpp lines 234-241): `false` unless the tag
is MAPPING, else a `find` on the map.  Total — it never throws. -/
def Value.contains (v : Value) (key : List Char) : Bool :=
  match v with
  | .mapping m => (mapFind m key).isSome
  | _ => false

/-- Structured error: the payload of a `YamlException` (message text and
the 1-based source position; accessor errors leave line/column at the
constructor defaults 0/0). -/
structure Err where
  msg : List Char
  line : Int := 0
  col : Int := 0
  deriving DecidableEq, Repr

/-- Mutable `operator[](const std::string&)` (yaml.cpp lines 249-261).
A NIL value is upgraded in place to an empty MAPPING; a non-MAPPING tag
then throws; `std::map::operator[]` default-inserts a NIL entry for an
absent key.  The result is the pair (container after the call, entry
returned by reference). -/
def bracketKey (v : Value) (key : List Char) : Except Err (Value × Value) :=
  match v with
  | .nil =>
    let (m, entry) := mapIndex .nil key
    .ok (.mapping m, entry)
  | .mapping m0 =>
    let (m, entry) := mapIndex m0 key
    .ok (.mapping m, entry)
  | _ => .error { msg := "Value is not a mapping".data }
where
  /-- `std::map::operator[]`: find the key, default-inserting a
  `YamlValue()` (NIL) when absent; returns the map and the entry. -/
  mapIndex : EntryList → List Char → EntryList × Value
  | .nil, k => (.cons k .nil .nil, .nil)
  | .cons k0 v0 tl, k =>
    if charsLt k k0 then (.cons k .nil (.cons k0 v0 tl), .nil)
    else if k = k0 then (.cons k0 v0 tl, v0)
    else
      let (tl2, entry) := mapIndex tl k
      (.cons k0 v0 tl2, entry)

/-- `index+1 - size` fresh default (NIL) slots, as `std::vector::resize`
appends them. -/
def ValueList.padTo : ValueList → Nat → ValueList
  | .nil, 0 => .nil
  | .nil, n + 1 => .cons .nil (ValueList.padTo .nil n)
  | .cons h t, 0 => .cons h t
  | .cons h t, n + 1 => .cons h (t.padTo n)

def ValueList.get? : ValueList → Nat → Option Value
  | .nil, _ => none
  | .cons h _, 0 => some h
  | .cons _ t, n + 1 => t.get? n

/-- Mutable `operator[](size_t)` (yaml.cpp lines 277-293).  A NIL value is
upgraded in place to an empty SEQUENCE; a non-SEQUENCE tag then throws;
an index past the end resizes the vector to `index+1` (new slots are
default-constructed, i.e. NIL). -/
def bracketIdx (v : Value) (index : Nat) : Except Err (Value × Value) :=
  match v with
  | .nil =>
    let s := ValueList.padTo .nil (index + 1)
    .ok (.sequence s, (s.get? index).getD .nil)
  | .sequence s0 =>
    let s := if index ≥ s0.length then s0.padTo (index + 1) else s0
    .ok (.sequence s, (s.get? index).getD .nil)
  | _ => .error { msg := "Value is not a sequence".data }

/-! ### Serialization (`YamlValue::serializeValue`, yaml.cpp lines 308-450) -/

def digitChar (n : Nat) : Char := Char.ofNat (48 + n)

/-- Decimal digits of a natural number, most significant first, with an
explicit fuel so the kernel can always unfold it (`natChars` supplies
sufficient fuel). -/
def natCharsAux : Nat → Nat → List Char
  | 0, _ => []
  | fuel + 1, n => if n < 10 then [digitChar n] else natCharsAux fuel (n / 10) ++ [digitChar (n % 10)]

def natChars (n : Nat) : List Char := natCharsAux (n + 1) n

/-- `operator<<(std::ostream&, int)`: the decimal rendering. -/
def intChars (i : Int) : List Char :=
  if i < 0 then '-' :: natChars i.natAbs else natChars i.toNat

/-- Truncation toward zero of the value `m / 10^e` (what
`static_cast<int>(double)` computes before the range check). -/
def Dec.trunc (d : Dec) : Int := Int.tdiv d.m (pow10 d.e)

def intMin : Int := -2147483648
def intMax : Int := 2147483647

/-- `static_cast<int>(numberValue_)`.  For a value whose truncation lies
outside `int`'s range the C++ conversion is undefined behaviour; it is
modelled here by the x86-64 `cvttsd2si` result `INT_MIN`.  No theorem
below depends on that choice beyond the cast landing somewhere inside
`int`'s range, which every mainstream target satisfies. -/
def cppIntCast (d : Dec) : Int :=
  let t := d.trunc
  if intMin ≤ t ∧ t ≤ intMax then t else intMin

def stripTrailingZeros (l : List Char) : List Char :=
  (l.reverse.dropWhile (· = '0')).reverse

/-- Default `operator<<(std::ostream&, double)` formatting: `%g` with
precision 6 — round to six significant digits, use fixed notation when
the decimal exponent is in `[-4, 5]` and scientific notation otherwise,
and strip trailing fractional zeros.  Computed here on the exact decimal
payload (see the file comment on `Dec`). -/
def gFormat (d : Dec) : List Char :=
  if d.m = 0 then ['0'] else
  let n := d.m.natAbs
  let ds := natChars n
  let L := ds.length
  let E0 : Int := (L : Int) - 1 - (d.e : Int)
  let (md, E) :=
    if L ≤ 6 then (ds, E0) else
      let scale := (pow10 (L - 6)).toNat
      let q := n / scale
      let r := n % scale
      let half := scale / 2
      let q2 := if r > half then q + 1 else if r < half then q else if q % 2 = 1 then q + 1 else q
      if q2 = 1000000 then (natChars 100000, E0 + 1) else (natChars q2, E0)
  let body :=
    if E < -4 ∨ 6 ≤ E then
      let tl := stripTrailingZeros md.tail
      let mant := match md.head? with
        | some h => if tl = [] then [h] else h :: '.' :: tl
        | none => []
      let ea := natChars E.natAbs
      mant ++ 'e' :: (if E < 0 then '-' else '+') :: (if ea.length < 2 then '0' :: ea else ea)
    else if 0 ≤ E then
      let k := E.toNat + 1
      let ipart := if md.length < k then md ++ List.replicate (k - md.length) '0' else md.take k
      let frac := stripTrailingZeros (md.drop k)
      ipart ++ (if frac = [] then [] else '.' :: frac)
    else
      let z := (-E).toNat - 1
      '0' :: '.' :: (List.replicate z '0' ++ stripTrailingZeros md)
  if d.m < 0 then '-' :: body else body

/-- The NUMBER case of `serializeValue` (yaml.cpp lines 327-336):
`numberValue_ == (int)numberValue_` selects the integer literal, anything
else falls to the default double rendering. -/
def serializeNumber (d : Dec) : List Char :=
  if d.m == cppIntCast d * pow10 d.e then intChars (cppIntCast d) else gFormat d

/-- The quoting test of the STRING case (yaml.cpp lines 341-349). -/
def needsQuotes (s : List Char) : Bool :=
  s.isEmpty || s.contains '\n' || s.contains ':' || s.contains '#' ||
  s.contains '[' || s.contains ']' || s.contains '{' || s.contains '}' ||
  (!s.isEmpty && (s.head? == some ' ' || s.getLast? == some ' '))

/-- The escaping loop of the quoted STRING rendering (yaml.cpp lines
354-377). -/
def escapeChars : List Char → List Char
  | [] => []
  | c :: tl =>
    (if c = '"' ∨ c = '\\' then ['\\', c]
     else if c = '\n' then ['\\', 'n']
     else if c = '\r' then ['\\', 'r']
     else if c = '\t' then ['\\', 't']
     else [c]) ++ escapeChars tl

/-- `std::string(indent, ' ')`. -/
def spaces (n : Nat) : List Char := List.replicate n ' '

/-- `YamlValue::size` (yaml.cpp lines 214-227). -/
def Value.sizeV : Value → Nat
  | .sequence s => s.length
  | .mapping m => m.length
  | .str s => s.length
  | _ => 0

/-- `YamlValue::empty`. -/
def Value.emptyV (v : Value) : Bool := v.sizeV == 0

mutual

/-- `YamlValue::serializeValue(int indent, bool inArray)` (yaml.cpp lines
313-450), rendering block-style text. -/
def Value.serializeValue : Value → Nat → Bool → List Char
  | .nil, _, _ => "null".data
  | .boolean b, _, _ => if b then "true".data else "false".data
  | .number d, _, _ => serializeNumber d
  | .str s, _, _ => if needsQuotes s then '"' :: (escapeChars s ++ ['"']) else s
  | .sequence items, indent, _ =>
    match items with
    | .nil => "[]".data
    | _ => serSeqItems items indent true
  | .mapping entries, indent, inArray =>
    match entries with
    | .nil => "\x7b\x7d".data
    | _ => serMapEntries entries indent inArray true

/-- The SEQUENCE loop: each element on its own `- ` line at the given
indent, children at `indent + 2` with the in-array flag set; `first`
mirrors the `i > 0` newline test. -/
def serSeqItems : ValueList → Nat → Bool → List Char
  | .nil, _, _ => []
  | .cons v tl, indent, first =>
    (if first then [] else ['\n']) ++ spaces indent ++
      ('-' :: ' ' :: Value.serializeValue v (indent + 2) true) ++
      serSeqItems tl indent false

/-- The MAPPING loop: one `key: value` line per entry (already in the
map's key-sorted order); a non-empty mapping child moves to the next line
behind `indent + 2` extra spaces, a non-empty sequence child to the next
line with no extra prefix; the per-entry indent prefix is skipped when
rendering inside an array item. -/
def serMapEntries : EntryList → Nat → Bool → Bool → List Char
  | .nil, _, _, _ => []
  | .cons k v tl, indent, inArray, first =>
    let valueStr := Value.serializeValue v (indent + 2) false
    let rendered :=
      if v.isMapping && !v.emptyV then '\n' :: (spaces (indent + 2) ++ valueStr)
      else if v.isSequence && !v.emptyV then '\n' :: valueStr
      else valueStr
    (if first then [] else ['\n']) ++
      (if !inArray then spaces indent else []) ++
      (k ++ ':' :: ' ' :: rendered) ++
      serMapEntries tl indent inArray false

end

/-- `YamlValue::serialize(int indent = 0)`. -/
def Value.serialize (v : Value) : List Char := v.serializeValue 0 false

/-! ### Scanner (yaml.cpp lines 529-919) -/

/-- The `TokenType` enum of src/yaml.hpp (PIPE, FOLD, ANCHOR, ALIAS and
ERROR are declared by the source but never produced). -/
inductive TokType where
  | TOKEN_STRING | TOKEN_NUMBER | TOKEN_BOOLEAN | TOKEN_NULL
  | TOKEN_COLON | TOKEN_DASH | TOKEN_COMMA | TOKEN_NEWLINE
  | TOKEN_LBRACKET | TOKEN_RBRACKET | TOKEN_LBRACE | TOKEN_RBRACE
  | TOKEN_PIPE | TOKEN_FOLD | TOKEN_ANCHOR | TOKEN_ALIAS
  | TOKEN_EOF | TOKEN_ERROR | TOKEN_INDENT | TOKEN_DEDENT
  deriving DecidableEq, Repr

/-- A `Token`: type, text value and 1-based source position (the source's
always-zero `indent` field is dropped). -/
structure Tok where
  type : TokType
  value : List Char := []
  line : Int := 0
  col : Int := 0
  deriving DecidableEq, Repr

/-- `Scanner::make_`: a token stamped with the current position. -/
def mkTok (t : TokType) (v : List Char) (line col : Int) : Tok :=
  { type := t, value := v, line := line, col := col }

/-- The scanner state: the unread suffix of the source (`cur_` as the
remaining text), position, beginning-of-line flag, the indentation stack
(`indents_`, top first — the vector's `back`), and the queue of pending
synthesized tokens (`pending_`, front first). -/
structure ScanSt where
  rest : List Char
  line : Int
  col : Int
  bol : Bool
  indents : List Nat
  pending : List Tok
  deriving DecidableEq, Repr

/-- The `Scanner` constructor: position 1:1, beginning of line, base
indentation level 0, nothing pending. -/
def ScanSt.init (src : List Char) : ScanSt :=
  { rest := src, line := 1, col := 1, bol := true, indents := [0], pending := [] }

/-- `Scanner::advance_`'s position update. -/
def advanceChar (c : Char) (line col : Int) : Int × Int :=
  if c = '\n' then (line + 1, 1) else (line, col + 1)

/-- `Scanner::isSpace_`. -/
def isSpace_ (c : Char) : Bool := c = ' ' || c = '\t' || c = '\r'

/-- `Scanner::isDigit_`. -/
def isDigit_ (c : Char) : Bool := '0' ≤ c && c ≤ '9'

/-- `Scanner::skipToEOL_`: consume up to (not including) the next
newline. -/
def skipToEOL : List Char → Int → List Char × Int
  | [], col => ([], col)
  | c :: tl, col => if c = '\n' then (c :: tl, col) else skipToEOL tl (col + 1)

/-- The counting loop of `Scanner::measureIndent_`: spaces count 1, tabs
count 8, the column advances by one per character. -/
def measureIndentAux : List Char → Int → Nat → List Char × Int × Nat
  | [], col, sp => ([], col, sp)
  | c :: tl, col, sp =>
    if c = ' ' then measureIndentAux tl (col + 1) (sp + 1)
    else if c = '\t' then measureIndentAux tl (col + 1) (sp + 8)
    else (c :: tl, col, sp)

/-- `Scanner::measureIndent_` (yaml.cpp lines 830-858): measure leading
whitespace; on a blank or comment line reset the cursor and subtract the
measured width from the column (as the source does) and signal "no
content" with `none`. -/
def measureIndent (rest : List Char) (col : Int) : Option Nat × List Char × Int :=
  let (r2, c2, sp) := measureIndentAux rest col 0
  if r2 = [] ∨ r2.head? = some '\n' ∨ r2.head? = some '#' then
    (none, rest, c2 - (sp : Int))
  else
    (some sp, r2, c2)

/-- The pop loop of `Scanner::emitIndentChange_`: pop while more than the
base level remains and the top exceeds the new width, appending one
DEDENT per pop. -/
def popIndents (spaces : Nat) (line col : Int) : List Nat → List Tok → List Nat × List Tok
  | i :: j :: tl, pend =>
    if i > spaces then popIndents spaces line col (j :: tl) (pend ++ [mkTok .TOKEN_DEDENT [] line col])
    else (i :: j :: tl, pend)
  | inds, pend => (inds, pend)

/-- `Scanner::emitIndentChange_` (yaml.cpp lines 860-882): push and emit
INDENT on a greater width; pop and emit DEDENTs on a smaller width and
fail with the indentation error when the resulting top is not exactly the
measured width; do nothing on an equal width. -/
def emitIndentChange (spaces : Nat) (st : ScanSt) : Except Err ScanSt :=
  let currentIndent := st.indents.headD 0
  if spaces > currentIndent then
    .ok { st with indents := spaces :: st.indents,
                  pending := st.pending ++ [mkTok .TOKEN_INDENT [] st.line st.col] }
  else if spaces < currentIndent then
    let (inds, pend) := popIndents spaces st.line st.col st.indents st.pending
    if inds.headD 0 ≠ spaces then
      .error { msg := "Invalid indentation level".data, line := st.line, col := st.col }
    else
      .ok { st with indents := inds, pending := pend }
  else
    .ok st

/-- The quoted-string loop of `Scanner::next` (yaml.cpp lines 624-670):
read to the matching unescaped quote, translating the six recognized
escapes and taking any other escaped character literally; end of input
simply stops the string. -/
def readQuoted (quote : Char) : List Char → Int → Int → List Char → List Char × List Char × Int × Int
  | [], line, col, acc => (acc, [], line, col)
  | c :: tl, line, col, acc =>
    if c = quote then (acc, tl, line, col + 1)
    else if c = '\\' then
      match tl with
      | [] => (acc, [], line, col + 1)
      | esc :: tl2 =>
        let mapped := match esc with
          | 'n' => '\n'
          | 't' => '\t'
          | 'r' => '\r'
          | '\\' => '\\'
          | '"' => '"'
          | '\'' => '\''
          | other => other
        let (l2, c2) := advanceChar esc line (col + 1)
        readQuoted quote tl2 l2 c2 (acc ++ [mapped])
    else
      let (l2, c2) := advanceChar c line col
      readQuoted quote tl l2 c2 (acc ++ [c])

/-- The unquoted-scalar loop of `Scanner::next` (yaml.cpp lines 673-694):
read until a structural character (`: \n # [ ] { } ,`) or a dash that is a
list marker (followed by a space, a newline or the end of input). -/
def readScalar : List Char → Int → Int → List Char → List Char × List Char × Int × Int
  | [], line, col, acc => (acc, [], line, col)
  | c :: tl, line, col, acc =>
    if c = ':' ∨ c = '\n' ∨ c = '#' ∨ c = '[' ∨ c = ']' ∨ c = '{' ∨ c = '}' ∨ c = ',' then
      (acc, c :: tl, line, col)
    else if c = '-' ∧ (tl = [] ∨ tl.head? = some ' ' ∨ tl.head? = some '\n') then
      (acc, c :: tl, line, col)
    else
      let (l2, c2) := advanceChar c line col
      readScalar tl l2 c2 (acc ++ [c])

/-- The trailing-space trim applied to a collected scalar (yaml.cpp lines
697-700). -/
def trimTrailingSpaces (l : List Char) : List Char :=
  (l.reverse.dropWhile (· = ' ')).reverse

/-- The number test applied to a trimmed unquoted scalar (yaml.cpp lines
714-753): optional leading `-`, at least one digit, optionally a single
`.` followed by at least one digit, and nothing left over. -/
def isNumberTok (s : List Char) : Bool :=
  let s1 := if s.head? = some '-' then s.tail else s
  match s1 with
  | [] => false
  | c :: _ =>
    if !isDigit_ c then false
    else
      match s1.dropWhile isDigit_ with
      | [] => true
      | '.' :: r2 =>
        (match r2 with
         | [] => false
         | c2 :: _ => if !isDigit_ c2 then false else r2.dropWhile isDigit_ = [])
      | _ => false

/-- The literal classification of a trimmed unquoted scalar (yaml.cpp
lines 702-762): `true`/`false`, then `null`/`~`, then the number test,
else a plain string. -/
def classifyScalar (s : List Char) : TokType :=
  if s = "true".data ∨ s = "false".data then .TOKEN_BOOLEAN
  else if s = "null".data ∨ s = "~".data then .TOKEN_NULL
  else if isNumberTok s then .TOKEN_NUMBER
  else .TOKEN_STRING

/-- The end-of-input flush (yaml.cpp lines 769-774): pop every
indentation level above the base, one DEDENT each. -/
def flushIndents (line col : Int) : List Nat → List Tok → List Nat × List Tok
  | _ :: j :: tl, pend => flushIndents line col (j :: tl) (pend ++ [mkTok .TOKEN_DEDENT [] line col])
  | inds, pend => (inds, pend)

/-- What `Scanner::next` does once the input is exhausted: flush the
remaining DEDENTs, deliver pending tokens first, then EOF forever. -/
def scanFinish (st : ScanSt) : Tok × ScanSt :=
  let (inds, pend) := flushIndents st.line st.col st.indents st.pending
  match pend with
  | t :: ps => (t, { st with indents := inds, pending := ps })
  | [] => (mkTok .TOKEN_EOF [] st.line st.col, { st with indents := inds, pending := [] })

/-- The outcome of one iteration of the scanner's `while` loop: either a
result is produced (a token, or the indentation error), or the loop goes
around again with an updated state (`continue`, and the plain fall-off of
whitespace skipping). -/
inductive IterOut where
  | yield (r : Except Err (Tok × ScanSt)) : IterOut
  | next (st : ScanSt) : IterOut
  deriving Repr

/-- The character dispatch of one loop iteration of `Scanner::next`
(yaml.cpp lines 568-766), after the beginning-of-line handling:
whitespace and comments continue the loop, everything else yields a
token. -/
def charStep (st : ScanSt) : IterOut :=
  match st.rest with
  | [] => .next st
  | c :: tl =>
    if isSpace_ c ∧ c ≠ '\n' then
      .next { st with rest := tl, col := st.col + 1 }
    else if c = '#' then
      let (r2, c2) := skipToEOL st.rest st.col
      .next { st with rest := r2, col := c2 }
    else if c = '\n' then
      .yield (.ok (mkTok .TOKEN_NEWLINE [] (st.line + 1) 1,
        { st with rest := tl, line := st.line + 1, col := 1, bol := true }))
    else if c = ':' then
      .yield (.ok (mkTok .TOKEN_COLON [] st.line (st.col + 1), { st with rest := tl, col := st.col + 1 }))
    else if c = '-' ∧ (tl = [] ∨ tl.head? = some ' ' ∨ tl.head? = some '\n') then
      .yield (.ok (mkTok .TOKEN_DASH [] st.line (st.col + 1), { st with rest := tl, col := st.col + 1 }))
    else if c = '[' then
      .yield (.ok (mkTok .TOKEN_LBRACKET [] st.line (st.col + 1), { st with rest := tl, col := st.col + 1 }))
    else if c = ']' then
      .yield (.ok (mkTok .TOKEN_RBRACKET [] st.line (st.col + 1), { st with rest := tl, col := st.col + 1 }))
    else if c = '\x7b' then
      .yield (.ok (mkTok .TOKEN_LBRACE [] st.line (st.col + 1), { st with rest := tl, col := st.col + 1 }))
    else if c = '\x7d' then
      .yield (.ok (mkTok .TOKEN_RBRACE [] st.line (st.col + 1), { st with rest := tl, col := st.col + 1 }))
    else if c = ',' then
      .yield (.ok (mkTok .TOKEN_COMMA [] st.line (st.col + 1), { st with rest := tl, col := st.col + 1 }))
    else if c = '"' ∨ c = '\'' then
      let (v, r2, l2, c2) := readQuoted c tl st.line (st.col + 1) []
      .yield (.ok (mkTok .TOKEN_STRING v l2 c2, { st with rest := r2, line := l2, col := c2 }))
    else
      let (raw, r2, l2, c2) := readScalar st.rest st.line st.col []
      let s := trimTrailingSpaces raw
      if s = [] then
        let (l3, c3) := advanceChar c st.line st.col
        .next { st with rest := tl, line := l3, col := c3 }
      else
        .yield (.ok (mkTok (classifyScalar s) s l2 c2, { st with rest := r2, line := l2, col := c2 }))

/-- One full iteration of the `while` loop (yaml.cpp lines 544-767): the
beginning-of-line measurement and INDENT/DEDENT synthesis first, then the
character dispatch. -/
def scanIter (st : ScanSt) : IterOut :=
  match st.rest with
  | [] => .yield (.ok (scanFinish st))
  | _ :: _ =>
    if st.bol then
      let (res, rest2, col2) := measureIndent st.rest st.col
      match res with
      | some w =>
        match emitIndentChange w { st with rest := rest2, col := col2, bol := false } with
        | .error e => .yield (.error e)
        | .ok st1 =>
          match st1.pending with
          | t :: ps => .yield (.ok (t, { st1 with pending := ps }))
          | [] => charStep st1
      | none => charStep { st with bol := false, rest := rest2, col := col2 }
    else
      charStep st

/-- The `while (!isAtEnd_())` loop of `Scanner::next`, one fuel unit per
iteration.  `none` means the fuel ran out — the lemmas below never let
that happen on the runs they describe. -/
def nextTokAux : Nat → ScanSt → Option (Except Err (Tok × ScanSt))
  | 0, _ => none
  | fuel + 1, st =>
    match scanIter st with
    | .yield r => some r
    | .next st2 => nextTokAux fuel st2

/-- `Scanner::next` (yaml.cpp lines 535-784): deliver a pending
synthesized token first, otherwise run the scan loop with fuel that the
loop (which always either consumes input or clears `bol`) can never
exhaust. -/
def nextTok (st : ScanSt) : Option (Except Err (Tok × ScanSt)) :=
  match st.pending with
  | t :: ps => some (.ok (t, { st with pending := ps }))
  | [] => nextTokAux (st.rest.length * 2 + 4) st

/-! ### Parser (yaml.cpp lines 925-1156) -/

/-- Equality of outcomes is decidable (needed so concrete runs can be
checked by `decide`). -/
instance {ε α : Type} [DecidableEq ε] [DecidableEq α] : DecidableEq (Except ε α)
  | .error x, .error y =>
    if h : x = y then .isTrue (congrArg Except.error h)
    else .isFalse (fun hh => h (Except.error.inj hh))
  | .ok x, .ok y =>
    if h : x = y then .isTrue (congrArg Except.ok h)
    else .isFalse (fun hh => h (Except.ok.inj hh))
  | .error _, .ok _ => .isFalse Except.noConfusion
  | .ok _, .error _ => .isFalse Except.noConfusion

/-- Monadic sequencing on a known success, for unfolding parser runs. -/
lemma bind_ok_eq {ε α β : Type} (x : α) (f : α → Except ε β) :
    (do
      let y ← (Except.ok x : Except ε α)
      f y) = f x := rfl

/-- Monadic sequencing on a known failure. -/
lemma bind_error_eq {ε α β : Type} (e : ε) (f : α → Except ε β) :
    (do
      let y ← (Except.error e : Except ε α)
      f y) = (Except.error e : Except ε β) := rfl

/-- The fuel-exhaustion outcome of the embedded parser (no counterpart in
the source, whose recursion is bounded only by the call stack). -/
def noFuel : Err := { msg := "recursion fuel exhausted".data }

/-- The scanner call as the parser sees it. -/
def scnext (sc : ScanSt) : Except Err (Tok × ScanSt) :=
  match nextTok sc with
  | some r => r
  | none => .error noFuel

/-- The parser state: its scanner and the two lookahead slots `cur_` and
`nxt_`. -/
structure PSt where
  sc : ScanSt
  cur : Tok
  nxt : Tok
  deriving DecidableEq, Repr

/-- `Parser::advance_`: shift the lookahead and read one fresh token. -/
def padvance (p : PSt) : Except Err PSt := do
  let (t, sc2) ← scnext p.sc
  .ok { sc := sc2, cur := p.nxt, nxt := t }

/-- `Parser::expect_` (built on `match_`): consume the expected token type
or fail with the given message at the current token's position. -/
def expectTok (t : TokType) (msg : List Char) (p : PSt) : Except Err PSt :=
  if p.cur.type = t then padvance p
  else .error { msg := msg, line := p.cur.line, col := p.cur.col }

def natOfDigits (l : List Char) : Nat :=
  l.foldl (fun a c => 10 * a + (c.toNat - 48)) 0

/-- Modelled from the spec: `std::stod` (not part of this repository),
restricted to the scanner's number grammar — "NUMBER(text) → Number
(parsed as 64-bit float)".  The exact decimal value of the literal is
computed; the final rounding to binary is outside the model (see the file
comment on `Dec`). -/
def parseDecimal (s : List Char) : Dec :=
  let s1 := if s.head? = some '-' then s.tail else s
  let ip := s1.takeWhile isDigit_
  let rest := s1.dropWhile isDigit_
  let d : Dec :=
    if rest.head? = some '.' then
      let fd := rest.tail.takeWhile isDigit_
      { m := (natOfDigits ip * (pow10 fd.length).toNat + natOfDigits fd : Nat), e := fd.length }
    else
      { m := (natOfDigits ip : Nat), e := 0 }
  if s.head? = some '-' then { d with m := -d.m } else d

/-- `Parser::parseScalar_` (yaml.cpp lines 1062-1093): NULL, BOOLEAN,
NUMBER and STRING tokens become the corresponding leaf values; a DEDENT
here is the missing-value error, anything else the missing-scalar
error. -/
def parseScalar (p : PSt) : Except Err (Value × PSt) :=
  match p.cur.type with
  | .TOKEN_NULL => do
    let p2 ← padvance p
    .ok (.nil, p2)
  | .TOKEN_BOOLEAN =>
    let val := p.cur.value == "true".data
    do
      let p2 ← padvance p
      .ok (.boolean val, p2)
  | .TOKEN_NUMBER =>
    let val := parseDecimal p.cur.value
    do
      let p2 ← padvance p
      .ok (.number val, p2)
  | .TOKEN_STRING =>
    let val := p.cur.value
    do
      let p2 ← padvance p
      .ok (.str val, p2)
  | .TOKEN_DEDENT =>
    .error { msg := "Missing value after key".data, line := p.cur.line, col := p.cur.col }
  | _ =>
    .error { msg := "Expected scalar value".data, line := p.cur.line, col := p.cur.col }

/-- The recursive routines of `Parser`, indexed by fuel (`parsers` below):
`value` is `parseValue_`; `flowSeq`/`flowMap` are `parseFlowSeq_` and
`parseFlowMap_` with their element loops split out as `flowSeqLoop` and
`flowMapLoop`; `mappingLoop` and `seqLoop` are the loops of
`parseMapping_` and `parseSequence_`; `skipNewlines` and `skipDedents`
are the token-skipping loops. -/
structure Parsers where
  value : PSt → Except Err (Value × PSt)
  flowSeq : PSt → Except Err (Value × PSt)
  flowSeqLoop : ValueList → PSt → Except Err (ValueList × PSt)
  flowMap : PSt → Except Err (Value × PSt)
  flowMapLoop : EntryList → PSt → Except Err (EntryList × PSt)
  mappingLoop : EntryList → PSt → Except Err (EntryList × PSt)
  seqLoop : ValueList → PSt → Except Err (ValueList × PSt)
  skipNewlines : PSt → Except Err PSt
  skipDedents : PSt → Except Err PSt

/-- One fuel level of every parser routine; each recursive call and each
loop iteration steps to the previous level (yaml.cpp lines 976-1156,
transcribed clause by clause). -/
def parsers : Nat → Parsers
  | 0 =>
    { value := fun _ => .error noFuel
      flowSeq := fun _ => .error noFuel
      flowSeqLoop := fun _ _ => .error noFuel
      flowMap := fun _ => .error noFuel
      flowMapLoop := fun _ _ => .error noFuel
      mappingLoop := fun _ _ => .error noFuel
      seqLoop := fun _ _ => .error noFuel
      skipNewlines := fun _ => .error noFuel
      skipDedents := fun _ => .error noFuel }
  | fuel + 1 =>
    let P := parsers fuel
    { -- `parseValue_`: skip newlines, then dispatch on the current token
      -- (with the STRING-then-COLON lookahead selecting a block mapping).
      value := fun p => do
        let p ← P.skipNewlines p
        match p.cur.type with
        | .TOKEN_LBRACE => P.flowMap p
        | .TOKEN_LBRACKET => P.flowSeq p
        | .TOKEN_DASH => do
          let (items, p2) ← P.seqLoop .nil p
          .ok (.sequence items, p2)
        | .TOKEN_INDENT => do
          let p2 ← padvance p
          P.value p2
        | _ =>
          if p.cur.type = .TOKEN_STRING ∧ p.nxt.type = .TOKEN_COLON then do
            let (entries, p2) ← P.mappingLoop .nil p
            .ok (.mapping entries, p2)
          else
            parseScalar p
      -- `parseFlowSeq_`: '[', elements, ']'.
      flowSeq := fun p => do
        let p ← expectTok .TOKEN_LBRACKET "Expected '['".data p
        let (seq, p2) ← P.flowSeqLoop .nil p
        let p3 ← expectTok .TOKEN_RBRACKET "Expected ']'".data p2
        .ok (.sequence seq, p3)
      -- the element loop of `parseFlowSeq_`: while not ']' and not EOF,
      -- parse a value; a comma continues, anything else but ']' breaks.
      flowSeqLoop := fun seq p =>
        if p.cur.type ≠ .TOKEN_RBRACKET ∧ p.cur.type ≠ .TOKEN_EOF then do
          let (v, p2) ← P.value p
          let seq2 := seq.push v
          if p2.cur.type = .TOKEN_COMMA then do
            let p3 ← padvance p2
            P.flowSeqLoop seq2 p3
          else if p2.cur.type ≠ .TOKEN_RBRACKET then
            .ok (seq2, p2)
          else
            P.flowSeqLoop seq2 p2
        else
          .ok (seq, p)
      -- `parseFlowMap_`: '{', entries, '}'.
      flowMap := fun p => do
        let p ← expectTok .TOKEN_LBRACE "Expected '\x7b'".data p
        let (map, p2) ← P.flowMapLoop .nil p
        let p3 ← expectTok .TOKEN_RBRACE "Expected '\x7d'".data p2
        .ok (.mapping map, p3)
      -- the entry loop of `parseFlowMap_`: a STRING key is required, then
      -- ':', then a value; a comma continues, anything else but '}' breaks.
      flowMapLoop := fun map p =>
        if p.cur.type ≠ .TOKEN_RBRACE ∧ p.cur.type ≠ .TOKEN_EOF then
          if p.cur.type ≠ .TOKEN_STRING then
            .error { msg := "Expected string key in mapping".data, line := p.cur.line, col := p.cur.col }
          else do
            let key := p.cur.value
            let p2 ← padvance p
            let p3 ← expectTok .TOKEN_COLON "Expected ':' after key".data p2
            let (v, p4) ← P.value p3
            let map2 := mapInsert map key v
            if p4.cur.type = .TOKEN_COMMA then do
              let p5 ← padvance p4
              P.flowMapLoop map2 p5
            else if p4.cur.type ≠ .TOKEN_RBRACE then
              .ok (map2, p4)
            else
              P.flowMapLoop map2 p4
        else
          .ok (map, p)
      -- the loop of `parseMapping_`: while a STRING key with a COLON next
      -- is in view, consume both, skip newlines, parse the value, skip
      -- newlines and DEDENTs, and loop.
      mappingLoop := fun map p =>
        if p.cur.type = .TOKEN_STRING ∧ p.nxt.type = .TOKEN_COLON then do
          let key := p.cur.value
          let p2 ← padvance p
          let p3 ← padvance p2
          let p4 ← P.skipNewlines p3
          let (v, p5) ← P.value p4
          let map2 := mapInsert map key v
          let p6 ← P.skipNewlines p5
          let p7 ← P.skipDedents p6
          P.mappingLoop map2 p7
        else
          .ok (map, p)
      -- the loop of `parseSequence_`: while a DASH is in view, consume it,
      -- parse the item, skip newlines, and loop.
      seqLoop := fun seq p =>
        if p.cur.type = .TOKEN_DASH then do
          let p2 ← padvance p
          let (v, p3) ← P.value p2
          let seq2 := seq.push v
          let p4 ← P.skipNewlines p3
          P.seqLoop seq2 p4
        else
          .ok (seq, p)
      skipNewlines := fun p =>
        if p.cur.type = .TOKEN_NEWLINE then do
          let p2 ← padvance p
          P.skipNewlines p2
        else
          .ok p
      skipDedents := fun p =>
        if p.cur.type = .TOKEN_DEDENT then do
          let p2 ← padvance p
          P.skipDedents p2
        else
          .ok p }

/-- The leading NEWLINE/INDENT skip of `Parser::parse` (yaml.cpp lines
939-942). -/
def topSkip : Nat → PSt → Except Err PSt
  | 0, _ => .error noFuel
  | fuel + 1, p =>
    if p.cur.type = .TOKEN_NEWLINE ∨ p.cur.type = .TOKEN_INDENT then do
      let p2 ← padvance p
      topSkip fuel p2
    else
      .ok p

/-- The `Parser` constructor (yaml.cpp lines 925-935): a fresh scanner and
two initial advances filling both lookahead slots. -/
def initP (src : List Char) : Except Err PSt := do
  let (t1, sc1) ← scnext (ScanSt.init src)
  let (t2, sc2) ← scnext sc1
  .ok { sc := sc2, cur := t1, nxt := t2 }

/-- `Parser::parse` (yaml.cpp lines 937-950): skip leading NEWLINE/INDENT
tokens, return Nil for an immediately-empty document, otherwise parse one
value (trailing tokens are not required to be consumed). -/
def parseTop (fuel : Nat) (p : PSt) : Except Err Value := do
  let p ← topSkip fuel p
  if p.cur.type = .TOKEN_EOF then
    .ok .nil
  else do
    let (v, _) ← (parsers fuel).value p
    .ok v

/-- `yaml::parse` (yaml.hpp line 221): construct a parser over the text
and run it, with fuel amply proportional to the input size. -/
def parseYaml (src : List Char) : Except Err Value := do
  let p ← initP src
  parseTop (src.length * 8 + 64) p

/-! ### The raw representation, for the move-semantics claim -/

/-- The raw `YamlValue` object for the move-semantics claim: the tag and
one field per union member (`boolValue_`, `numberValue_`, and the three
owning pointers, a null pointer being `none`).  The C++ union overlays
these and leaves the inactive members indeterminate; keeping them as
separate fields lets `moveFrom` be transcribed write-for-write. -/
structure RawValue where
  type_ : YamlType
  boolValue_ : Bool := false
  numberValue_ : Dec := { m := 0, e := 0 }
  stringValue_ : Option (List Char) := none
  sequenceValue_ : Option ValueList := none
  mappingValue_ : Option EntryList := none
  deriving DecidableEq, Repr

/-- `YamlValue::moveFrom` (yaml.cpp lines 117-144): switch on the
source's tag, copy the active member across, null the source's pointer in
the three owning cases, and set the source's tag to NIL.  The result is
the pair (destination, source) as left by the call.  The move assignment
`operator=(YamlValue&&)` (yaml.cpp lines 59-67) is `cleanup()` — which
releases memory but writes no field — followed by this, so its observable
effect on distinct objects is the same pair. -/
def moveFrom (dst other : RawValue) : RawValue × RawValue :=
  match other.type_ with
  | .NIL =>
    ({ dst with type_ := .NIL }, { other with type_ := .NIL })
  | .BOOLEAN =>
    ({ dst with type_ := .BOOLEAN, boolValue_ := other.boolValue_ }, { other with type_ := .NIL })
  | .NUMBER =>
    ({ dst with type_ := .NUMBER, numberValue_ := other.numberValue_ }, { other with type_ := .NIL })
  | .STRING =>
    ({ dst with type_ := .STRING, stringValue_ := other.stringValue_ },
     { other with type_ := .NIL, stringValue_ := none })
  | .SEQUENCE =>
    ({ dst with type_ := .SEQUENCE, sequenceValue_ := other.sequenceValue_ },
     { other with type_ := .NIL, sequenceValue_ := none })
  | .MAPPING =>
    ({ dst with type_ := .MAPPING, mappingValue_ := other.mappingValue_ },
     { other with type_ := .NIL, mappingValue_ := none })

/-- The payload a `RawValue` currently owns, read off its tag. -/
inductive Payload where
  | nil
  | boolean (b : Bool)
  | number (d : Dec)
  | strP (p : Option (List Char))
  | seqP (p : Option ValueList)
  | mapP (p : Option EntryList)
  deriving DecidableEq, Repr

def RawValue.payload (v : RawValue) : Payload :=
  match v.type_ with
  | .NIL => .nil
  | .BOOLEAN => .boolean v.boolValue_
  | .NUMBER => .number v.numberValue_
  | .STRING => .strP v.stringValue_
  | .SEQUENCE => .seqP v.sequenceValue_
  | .MAPPING => .mapP v.mappingValue_

/-! ## Claim theorems -/

/-! ### C10 — `contains` is total and exact -/

lemma mapFind_isSome_iff_mem : (m : EntryList) → (k : List Char) →
    ((mapFind m k).isSome = true ↔ k ∈ m.keys)
  | .nil, k => by simp [mapFind, EntryList.keys]
  | .cons k0 v0 tl, k => by
    by_cases h : k = k0
    · simp [mapFind, EntryList.keys, h]
    · simp [mapFind, EntryList.keys, h, mapFind_isSome_iff_mem tl k]

/-- C10: for every value `v` and key `k`, `v.contains k` is a total
boolean — it returns `false` whenever `v`'s tag is not MAPPING, and on a
mapping it returns `true` exactly when `k` is one of the mapping's
keys. -/
theorem contains_total_exact :
    ∀ (v : Value) (k : List Char),
      (v.typeOf ≠ .MAPPING → v.contains k = false) ∧
      (∀ m, v = .mapping m → (v.contains k = true ↔ k ∈ m.keys)) := by
  intro v k
  constructor
  · intro hne
    cases v <;> first
      | rfl
      | simp [Value.typeOf] at hne
  · intro m hm
    subst hm
    simpa [Value.contains] using mapFind_isSome_iff_mem m k

/-- C10 witness: a NUMBER value reports `false`, a mapping reports its
key. -/
theorem contains_total_exact_witness :
    ((Value.number { m := 1, e := 0 }).contains "k".data = false) ∧
    ((Value.mapping (.cons "a".data .nil .nil)).contains "a".data = true ↔
      "a".data ∈ (EntryList.cons "a".data .nil .nil).keys) := by
  refine ⟨(contains_total_exact (Value.number { m := 1, e := 0 }) "k".data).1 (by decide), ?_⟩
  exact (contains_total_exact (Value.mapping (.cons "a".data .nil .nil)) "a".data).2 _ rfl

/-! ### C9 — move semantics leave the source NIL -/

/-- C9: after `moveFrom` (move construction, and move assignment between
distinct objects) the moved-from value's tag is NIL and its owning
pointer for the moved case is nulled, so destroying or reusing it is
safe; the destination carries exactly the tag and active payload the
source held before the move. -/
theorem moveFrom_source_nil :
    ∀ dst other : RawValue,
      ((moveFrom dst other).2.type_ = .NIL) ∧
      ((moveFrom dst other).1.type_ = other.type_) ∧
      ((moveFrom dst other).1.payload = other.payload) ∧
      (other.type_ = .STRING → (moveFrom dst other).2.stringValue_ = none) ∧
      (other.type_ = .SEQUENCE → (moveFrom dst other).2.sequenceValue_ = none) ∧
      (other.type_ = .MAPPING → (moveFrom dst other).2.mappingValue_ = none) := by
  intro dst other
  rcases other with ⟨t, b, n, s, sq, mp⟩
  cases t <;> simp [moveFrom, RawValue.payload]

/-- C9 witness: moving out of a concrete STRING value. -/
theorem moveFrom_source_nil_witness :
    (moveFrom { type_ := .NIL } { type_ := .STRING, stringValue_ := some "hi".data }).2.type_ = .NIL ∧
    (moveFrom { type_ := .NIL } { type_ := .STRING, stringValue_ := some "hi".data }).2.stringValue_ = none ∧
    (moveFrom { type_ := .NIL } { type_ := .STRING, stringValue_ := some "hi".data }).1.payload =
      Payload.strP (some "hi".data) := by
  have h := moveFrom_source_nil { type_ := .NIL } { type_ := .STRING, stringValue_ := some "hi".data }
  exact ⟨h.1, h.2.2.2.1 rfl, by rw [h.2.2.1]; rfl⟩

/-! ### C8 — mutable indexing upgrades NIL, rejects other tags -/

lemma padTo_nil_length (n : Nat) : (ValueList.padTo .nil n).length = n := by
  induction n with
  | zero => rfl
  | succ n ih => simp [ValueList.padTo, ValueList.length, ih]

lemma padTo_nil_get (n j : Nat) (h : j < n) :
    (ValueList.padTo .nil n).get? j = some .nil := by
  induction n generalizing j with
  | zero => omega
  | succ n ih =>
    cases j with
    | zero => rfl
    | succ j => exact ih j (by omega)

/-- C8: on a mutable NIL value, keyed access upgrades it in place to a
mapping holding exactly the accessed key (with a fresh NIL entry, which
is returned); indexed access with `i` upgrades it to a sequence of length
`i+1` whose slots are all NIL; on any other non-matching tag both
accesses fail with the type-mismatch error. -/
theorem bracket_upgrades_nil :
    (∀ k, bracketKey .nil k = .ok (.mapping (.cons k .nil .nil), .nil)) ∧
    (∀ i, ∃ s, bracketIdx .nil i = .ok (.sequence s, .nil) ∧
      s.length = i + 1 ∧ (∀ j, j < i + 1 → s.get? j = some .nil)) ∧
    (∀ (v : Value) k, v.typeOf ≠ .NIL → v.typeOf ≠ .MAPPING →
      bracketKey v k = .error { msg := "Value is not a mapping".data }) ∧
    (∀ (v : Value) i, v.typeOf ≠ .NIL → v.typeOf ≠ .SEQUENCE →
      bracketIdx v i = .error { msg := "Value is not a sequence".data }) := by
  refine ⟨fun k => rfl, fun i => ?_, fun v k h1 h2 => ?_, fun v i h1 h2 => ?_⟩
  · refine ⟨ValueList.padTo .nil (i + 1), ?_, padTo_nil_length (i + 1), fun j hj => padTo_nil_get _ j hj⟩
    have hg : (ValueList.padTo .nil (i + 1)).get? i = some .nil :=
      padTo_nil_get (i + 1) i (by omega)
    simp [bracketIdx, hg]
  · cases v <;> simp [Value.typeOf] at h1 h2 ⊢ <;> simp [bracketKey]
  · cases v <;> simp [Value.typeOf] at h1 h2 ⊢ <;> simp [bracketIdx]

/-- C8 witness: indexing a NIL value at 2 builds a three-NIL sequence;
keyed access on a BOOLEAN and indexed access on a MAPPING are
type-mismatch errors. -/
theorem bracket_upgrades_nil_witness :
    bracketKey .nil "k".data = .ok (.mapping (.cons "k".data .nil .nil), .nil) ∧
    (∃ s, bracketIdx .nil 2 = .ok (.sequence s, .nil) ∧
      s.length = 3 ∧ (∀ j, j < 3 → s.get? j = some .nil)) ∧
    bracketKey (.boolean true) "k".data = .error { msg := "Value is not a mapping".data } ∧
    bracketIdx (.mapping .nil) 0 = .error { msg := "Value is not a sequence".data } := by
  refine ⟨bracket_upgrades_nil.1 "k".data, bracket_upgrades_nil.2.1 2, ?_, ?_⟩
  · exact bracket_upgrades_nil.2.2.1 (.boolean true) "k".data (by decide) (by decide)
  · exact bracket_upgrades_nil.2.2.2 (.mapping .nil) 0 (by decide) (by decide)

/-! ### C6 — Number serialization and the 32-bit cast -/

lemma pow10_pos (e : Nat) : 0 < pow10 e := by
  induction e with
  | zero => decide
  | succ e ih => simpa [pow10] using by omega

lemma pow10_ne_zero (e : Nat) : pow10 e ≠ 0 := (pow10_pos e).ne'

/-- On an exact multiple the truncation recovers the cofactor. -/
lemma trunc_of_mul (c : Int) (e : Nat) : Dec.trunc { m := c * pow10 e, e := e } = c := by
  simp only [Dec.trunc]
  exact Int.mul_tdiv_cancel c (pow10_ne_zero e)

/-- C6 counterexample: the integral double 3000000000 (beyond `int`'s
range) does not serialize as the integer literal of its truncation — the
comparison against `static_cast<int>` fails and the default `%g`
rendering `3e+09` is produced, refuting the claim's extension to every
64-bit float with integral truncation. -/
theorem serializeNumber_beyond_int_cex :
    (∃ n : ℤ, Dec.denote { m := 3000000000, e := 0 } = (n : ℚ)) ∧
    (Value.number { m := 3000000000, e := 0 }).serialize = "3e+09".data ∧
    (Value.number { m := 3000000000, e := 0 }).serialize ≠
      intChars (Dec.trunc { m := 3000000000, e := 0 }) := by
  refine ⟨⟨3000000000, by norm_num [Dec.denote, pow10]⟩, by decide, by decide⟩

/-- C6 (amended): serialization prints the integer truncation exactly
when the value is integral AND that truncation fits in the 32-bit `int`
range (the code compares against `static_cast<int>`); every other value —
including integral doubles beyond that range — falls to the default
decimal rendering.  Integrality of the payload is the divisibility
`pow10 e ∣ m`, shown equivalent to the denoted rational being an
integer. -/
theorem serializeNumber_int32_branch :
    ∀ d : Dec,
      ((d.m == cppIntCast d * pow10 d.e) = true ↔
        (pow10 d.e ∣ d.m ∧ intMin ≤ d.trunc ∧ d.trunc ≤ intMax)) ∧
      ((pow10 d.e ∣ d.m) ↔ ∃ n : ℤ, d.denote = (n : ℚ)) ∧
      (pow10 d.e ∣ d.m → intMin ≤ d.trunc → d.trunc ≤ intMax →
        (Value.number d).serialize = intChars d.trunc) ∧
      (¬(pow10 d.e ∣ d.m ∧ intMin ≤ d.trunc ∧ d.trunc ≤ intMax) →
        (Value.number d).serialize = gFormat d) := by
  intro d
  have hP := pow10_pos d.e
  have hP0 := pow10_ne_zero d.e
  have hbranch : (d.m == cppIntCast d * pow10 d.e) = true ↔
      (pow10 d.e ∣ d.m ∧ intMin ≤ d.trunc ∧ d.trunc ≤ intMax) := by
    constructor
    · intro h
      have hm : d.m = cppIntCast d * pow10 d.e := by
        exact beq_iff_eq.mp h
      have htr : d.trunc = cppIntCast d := by
        have : Dec.trunc { m := cppIntCast d * pow10 d.e, e := d.e } = cppIntCast d :=
          trunc_of_mul _ _
        calc d.trunc = Dec.trunc { m := d.m, e := d.e } := by rfl
          _ = cppIntCast d := by rw [hm]; exact this
      by_cases hr : intMin ≤ d.trunc ∧ d.trunc ≤ intMax
      · exact ⟨Dvd.intro_left _ hm.symm, hr.1, hr.2⟩
      · exfalso
        have hc : cppIntCast d = intMin := by
          simp only [cppIntCast]
          rw [if_neg hr]
        rw [hc] at htr
        exact hr ⟨le_of_eq htr.symm, by rw [htr]; decide⟩
    · rintro ⟨⟨c, hc⟩, h1, h2⟩
      have htr : d.trunc = c := by
        have : Dec.trunc { m := c * pow10 d.e, e := d.e } = c := trunc_of_mul _ _
        calc d.trunc = Dec.trunc { m := d.m, e := d.e } := by rfl
          _ = c := by rw [show d.m = c * pow10 d.e by linarith [hc]]; exact this
      have hcast : cppIntCast d = d.trunc := by
        simp only [cppIntCast]
        rw [if_pos ⟨h1, h2⟩]
      rw [hcast, htr]
      exact beq_iff_eq.mpr (by linarith [hc])
  have hdenote : (pow10 d.e ∣ d.m) ↔ ∃ n : ℤ, d.denote = (n : ℚ) := by
    constructor
    · rintro ⟨c, hc⟩
      refine ⟨c, ?_⟩
      have hQ : ((pow10 d.e : ℤ) : ℚ) ≠ 0 := Int.cast_ne_zero.mpr hP0
      rw [Dec.denote, hc]
      push_cast
      field_simp
    · rintro ⟨n, hn⟩
      have hQ : ((pow10 d.e : ℤ) : ℚ) ≠ 0 := Int.cast_ne_zero.mpr hP0
      rw [Dec.denote, div_eq_iff hQ] at hn
      have : d.m = n * pow10 d.e := by exact_mod_cast hn
      exact ⟨n, by linarith [this]⟩
  refine ⟨hbranch, hdenote, ?_, ?_⟩
  · intro hd h1 h2
    have hb : (d.m == cppIntCast d * pow10 d.e) = true := hbranch.mpr ⟨hd, h1, h2⟩
    have hcast : cppIntCast d = d.trunc := by
      simp only [cppIntCast]
      rw [if_pos ⟨h1, h2⟩]
    show serializeNumber d = intChars d.trunc
    rw [serializeNumber, if_pos hb, hcast]
  · intro hnot
    have hb : (d.m == cppIntCast d * pow10 d.e) = false := by
      rcases Bool.eq_false_or_eq_true (d.m == cppIntCast d * pow10 d.e) with h | h
      · exact absurd (hbranch.mp h) hnot
      · exact h
    show serializeNumber d = gFormat d
    rw [serializeNumber, if_neg (by simp [hb])]

/-- C6 amended witness: the in-range integral 8080 serializes as its
integer literal. -/
theorem serializeNumber_int32_branch_witness :
    (Value.number { m := 8080, e := 0 }).serialize = intChars (Dec.trunc { m := 8080, e := 0 }) :=
  (serializeNumber_int32_branch { m := 8080, e := 0 }).2.2.1 (by decide) (by decide) (by decide)

/-! ### C4 — dedent handling is the scanner's only failure -/

lemma popIndents_eq_dropWhile (spaces : Nat) (line col : Int) :
    ∀ (inds : List Nat) (pend : List Tok), inds.getLast? = some 0 →
      popIndents spaces line col inds pend =
        (inds.dropWhile (fun i => decide (i > spaces)),
         pend ++ List.replicate (inds.takeWhile (fun i => decide (i > spaces))).length
           (mkTok .TOKEN_DEDENT [] line col))
  | [], pend => by intro h; simp at h
  | [i], pend => by
    intro h
    have h0 : i = 0 := by simpa using h
    subst h0
    rw [show popIndents spaces line col [0] pend = ([0], pend) from rfl,
      List.dropWhile_cons, List.takeWhile_cons, decide_eq_false (by omega : ¬ (0 > spaces))]
    simp
  | i :: j :: tl, pend => by
    intro h
    have htl : (j :: tl).getLast? = some 0 := by
      rw [List.getLast?_cons_cons] at h; exact h
    by_cases hi : i > spaces
    · have ih := popIndents_eq_dropWhile spaces line col (j :: tl)
        (pend ++ [mkTok .TOKEN_DEDENT [] line col]) htl
      rw [show popIndents spaces line col (i :: j :: tl) pend =
          (if i > spaces then
            popIndents spaces line col (j :: tl) (pend ++ [mkTok .TOKEN_DEDENT [] line col])
          else (i :: j :: tl, pend)) from rfl,
        if_pos hi, ih]
      rw [show (i :: j :: tl).dropWhile (fun i => decide (i > spaces)) =
            (j :: tl).dropWhile (fun i => decide (i > spaces)) by
          rw [List.dropWhile_cons, decide_eq_true hi]; simp,
        show (i :: j :: tl).takeWhile (fun i => decide (i > spaces)) =
            i :: (j :: tl).takeWhile (fun i => decide (i > spaces)) by
          rw [List.takeWhile_cons, decide_eq_true hi]; simp]
      simp [List.replicate_succ]
    · rw [show popIndents spaces line col (i :: j :: tl) pend =
          (if i > spaces then
            popIndents spaces line col (j :: tl) (pend ++ [mkTok .TOKEN_DEDENT [] line col])
          else (i :: j :: tl, pend)) from rfl,
        if_neg hi]
      rw [show (i :: j :: tl).dropWhile (fun i => decide (i > spaces)) = i :: j :: tl by
          rw [List.dropWhile_cons, decide_eq_false hi]; simp,
        show (i :: j :: tl).takeWhile (fun i => decide (i > spaces)) = [] by
          rw [List.takeWhile_cons, decide_eq_false hi]; simp]
      simp

lemma dropWhile_headD_eq_iff_mem (spaces : Nat) :
    ∀ inds : List Nat, List.Pairwise (· > ·) inds → inds.getLast? = some 0 →
      (((inds.dropWhile (fun i => decide (i > spaces))).headD 0 = spaces) ↔ spaces ∈ inds)
  | [], _, h => by simp at h
  | [i], hp, h => by
    have h0 : i = 0 := by simpa using h
    subst h0
    rw [List.dropWhile_cons, decide_eq_false (by omega : ¬ (0 > spaces))]
    simp [eq_comm]
  | i :: j :: tl, hp, h => by
    have htl : (j :: tl).getLast? = some 0 := by
      rw [List.getLast?_cons_cons] at h; exact h
    by_cases hi : i > spaces
    · have ih := dropWhile_headD_eq_iff_mem spaces (j :: tl) hp.tail htl
      rw [show (i :: j :: tl).dropWhile (fun i => decide (i > spaces)) =
            (j :: tl).dropWhile (fun i => decide (i > spaces)) by
          rw [List.dropWhile_cons, decide_eq_true hi]; simp, ih]
      constructor
      · intro hm; exact List.mem_cons_of_mem _ hm
      · intro hm
        rcases List.mem_cons.mp hm with he | hm
        · omega
        · exact hm
    · rw [show (i :: j :: tl).dropWhile (fun i => decide (i > spaces)) = i :: j :: tl by
          rw [List.dropWhile_cons, decide_eq_false hi]; simp, List.headD_cons]
      constructor
      · intro he; exact he ▸ List.mem_cons_self _ _
      · intro hm
        rcases List.mem_cons.mp hm with he | hm
        · omega
        · have := (List.pairwise_cons.mp hp).1 spaces hm
          omega

lemma emitIndentChange_error_shape (spaces : Nat) (st : ScanSt) (e : Err) :
    emitIndentChange spaces st = .error e →
    e = { msg := "Invalid indentation level".data, line := st.line, col := st.col } := by
  intro h
  simp only [emitIndentChange] at h
  split at h
  · exact absurd h (by simp)
  · split at h
    · split at h
      · injection h with h2
        exact h2.symm
      · exact absurd h (by simp)
    · exact absurd h (by simp)

set_option maxHeartbeats 1000000 in
lemma charStep_no_error (st : ScanSt) (e : Err) :
    charStep st ≠ .yield (.error e) := by
  intro h
  unfold charStep at h
  rcases hr : st.rest with _ | ⟨c, tl⟩ <;> rw [hr] at h
  · exact IterOut.noConfusion h
  · dsimp only at h
    rcases hk : skipToEOL (c :: tl) st.col with ⟨rk, ck⟩
    rcases hq : readQuoted c tl st.line (st.col + 1) [] with ⟨v, rq, lq, cq⟩
    rcases hs : readScalar (c :: tl) st.line st.col [] with ⟨raw, rs, ls, cs⟩
    rcases ha : advanceChar c st.line st.col with ⟨l3, c3⟩
    rw [hk, hq, hs, ha] at h
    dsimp only at h
    by_cases h1 : isSpace_ c = true ∧ c ≠ '\n'
    · rw [if_pos h1] at h; exact IterOut.noConfusion h
    rw [if_neg h1] at h
    by_cases h2 : c = '#'
    · rw [if_pos h2] at h; exact IterOut.noConfusion h
    rw [if_neg h2] at h
    by_cases h3 : c = '\n'
    · rw [if_pos h3] at h; exact Except.noConfusion (IterOut.yield.inj h)
    rw [if_neg h3] at h
    by_cases h4 : c = ':'
    · rw [if_pos h4] at h; exact Except.noConfusion (IterOut.yield.inj h)
    rw [if_neg h4] at h
    by_cases h5 : c = '-' ∧ (tl = [] ∨ tl.head? = some ' ' ∨ tl.head? = some '\n')
    · rw [if_pos h5] at h; exact Except.noConfusion (IterOut.yield.inj h)
    rw [if_neg h5] at h
    by_cases h6 : c = '['
    · rw [if_pos h6] at h; exact Except.noConfusion (IterOut.yield.inj h)
    rw [if_neg h6] at h
    by_cases h7 : c = ']'
    · rw [if_pos h7] at h; exact Except.noConfusion (IterOut.yield.inj h)
    rw [if_neg h7] at h
    by_cases h8 : c = '\x7b'
    · rw [if_pos h8] at h; exact Except.noConfusion (IterOut.yield.inj h)
    rw [if_neg h8] at h
    by_cases h9 : c = '\x7d'
    · rw [if_pos h9] at h; exact Except.noConfusion (IterOut.yield.inj h)
    rw [if_neg h9] at h
    by_cases h10 : c = ','
    · rw [if_pos h10] at h; exact Except.noConfusion (IterOut.yield.inj h)
    rw [if_neg h10] at h
    by_cases h11 : c = '"' ∨ c = '\''
    · rw [if_pos h11] at h; exact Except.noConfusion (IterOut.yield.inj h)
    rw [if_neg h11] at h
    by_cases h12 : trimTrailingSpaces raw = []
    · rw [if_pos h12] at h; exact IterOut.noConfusion h
    · rw [if_neg h12] at h; exact Except.noConfusion (IterOut.yield.inj h)

lemma scanIter_error_msg (st : ScanSt) (e : Err) :
    scanIter st = .yield (.error e) → e.msg = "Invalid indentation level".data := by
  intro h
  unfold scanIter at h
  rcases hr : st.rest with _ | ⟨c, tl⟩ <;> rw [hr] at h
  · exact absurd (IterOut.yield.inj h) (by simp)
  · dsimp only at h
    split at h
    · rcases hm : measureIndent (c :: tl) st.col with ⟨res, rest2, col2⟩
      rw [hm] at h
      rcases res with _ | w <;> dsimp only at h
      · exact absurd h (charStep_no_error _ e)
      · rcases he : emitIndentChange w { st with rest := rest2, col := col2, bol := false } with e2 | st1 <;>
          (rw [he] at h; dsimp only at h)
        · have he2 : e2 = e := Except.error.inj (IterOut.yield.inj h)
          subst he2
          exact congrArg Err.msg (emitIndentChange_error_shape _ _ _ he)
        · rcases hp : st1.pending with _ | ⟨t, ps⟩ <;> rw [hp] at h
          · exact absurd h (charStep_no_error _ e)
          · exact Except.noConfusion (IterOut.yield.inj h)
    · exact absurd h (charStep_no_error _ e)

lemma scan_error_msg (fuel : Nat) :
    ∀ st e, nextTokAux fuel st = some (.error e) → e.msg = "Invalid indentation level".data := by
  induction fuel with
  | zero => intro st e h; simp [nextTokAux] at h
  | succ fuel ih =>
    intro st e h
    unfold nextTokAux at h
    rcases hi : scanIter st with r | st2 <;> rw [hi] at h
    · dsimp only at h
      have hr : r = .error e := Option.some.inj h
      subst hr
      exact scanIter_error_msg st e hi
    · exact ih st2 e h

/-- C4: when a line's measured width is below the top of the indentation
stack, the scanner pops exactly the levels exceeding the width, appending
one DEDENT (stamped with the current position) per pop, and the call
fails — with the indentation error at the current line and column —
precisely when the width is not a level previously pushed on the stack;
moreover every error the scan loop can ever produce carries that same
indentation message, so this is the scanner's only failure. -/
theorem scanner_dedent_only_failure :
    (∀ (spaces : Nat) (st : ScanSt),
      List.Pairwise (· > ·) st.indents →
      st.indents.getLast? = some 0 →
      spaces < st.indents.headD 0 →
      (spaces ∈ st.indents →
        emitIndentChange spaces st = .ok { st with
          indents := st.indents.dropWhile (fun i => decide (i > spaces)),
          pending := st.pending ++ List.replicate
            (st.indents.takeWhile (fun i => decide (i > spaces))).length
            (mkTok .TOKEN_DEDENT [] st.line st.col) }) ∧
      (spaces ∉ st.indents →
        emitIndentChange spaces st =
          .error { msg := "Invalid indentation level".data, line := st.line, col := st.col })) ∧
    (∀ fuel st e, nextTokAux fuel st = some (.error e) →
      e.msg = "Invalid indentation level".data) := by
  constructor
  · intro spaces st hpw hlast hlt
    have hpop := popIndents_eq_dropWhile spaces st.line st.col st.indents st.pending hlast
    have hmem := dropWhile_headD_eq_iff_mem spaces st.indents hpw hlast
    have hne : ¬ spaces > st.indents.headD 0 := by omega
    constructor
    · intro hin
      simp only [emitIndentChange, if_neg hne, if_pos hlt, hpop]
      rw [if_neg (by simpa using hmem.mpr hin)]
    · intro hout
      simp only [emitIndentChange, if_neg hne, if_pos hlt, hpop]
      rw [if_pos (fun hc => hout (hmem.mp hc))]
  · exact scan_error_msg

/-- C4 witness: with the stack holding widths 0, 2 and 4 (top first), a
dedent to width 2 pops one level emitting one DEDENT, and a dedent to
width 1 — a width never pushed — is the indentation error at the current
position. -/
theorem scanner_dedent_only_failure_witness :
    (emitIndentChange 2 ⟨[], 3, 2, false, [4, 2, 0], []⟩ =
      .ok ⟨[], 3, 2, false, [2, 0], [mkTok .TOKEN_DEDENT [] 3 2]⟩) ∧
    (emitIndentChange 1 ⟨[], 3, 2, false, [4, 2, 0], []⟩ =
      .error { msg := "Invalid indentation level".data, line := 3, col := 2 }) := by
  have h2 := (scanner_dedent_only_failure.1 2 ⟨[], 3, 2, false, [4, 2, 0], []⟩
    (by decide) (by decide) (by decide)).1 (by decide)
  have h1 := (scanner_dedent_only_failure.1 1 ⟨[], 3, 2, false, [4, 2, 0], []⟩
    (by decide) (by decide) (by decide)).2 (by decide)
  exact ⟨by simpa using h2, h1⟩

/-! ### C2 — number grammar classification -/

/-- Modelled from the spec (§4.1 step 8): "optional leading `-`, one or
more digits, optionally a single `.` followed by one or more digits, with
the ENTIRE token consumed by this grammar (no leftover characters)". -/
def specNumberGrammar (s : List Char) : Prop :=
  ∃ ip rest : List Char,
    ip ≠ [] ∧ (∀ c ∈ ip, isDigit_ c = true) ∧
    (rest = [] ∨ ∃ fp, fp ≠ [] ∧ (∀ c ∈ fp, isDigit_ c = true) ∧ rest = '.' :: fp) ∧
    (s = ip ++ rest ∨ s = '-' :: (ip ++ rest))

lemma takeWhile_dropWhile_append {p : Char → Bool} :
    ∀ l r : List Char, (∀ c ∈ l, p c = true) → (∀ c, r.head? = some c → p c = false) →
      (l ++ r).takeWhile p = l ∧ (l ++ r).dropWhile p = r
  | [], r, _, hr => by
    rcases r with _ | ⟨c, t⟩
    · exact ⟨rfl, rfl⟩
    · have := hr c rfl
      rw [List.nil_append, List.takeWhile_cons, List.dropWhile_cons, this]
      exact ⟨by simp, by simp⟩
  | c :: l, r, hl, hr => by
    have hc : p c = true := hl c (List.mem_cons_self c l)
    have ih := takeWhile_dropWhile_append l r (fun x hx => hl x (List.mem_cons_of_mem c hx)) hr
    rw [List.cons_append, List.takeWhile_cons, List.dropWhile_cons, hc]
    exact ⟨by simp [ih.1], by simp [ih.2]⟩

lemma digit_ne_minus {c : Char} (h : isDigit_ c = true) : c ≠ '-' := by
  intro hc
  subst hc
  simp [isDigit_] at h

lemma head?_ne_minus_of_digits {ip rest : List Char} (hne : ip ≠ [])
    (hdig : ∀ c ∈ ip, isDigit_ c = true) :
    ¬ (ip ++ rest).head? = some '-' := by
  rcases ip with _ | ⟨c, t⟩
  · exact absurd rfl hne
  · intro h
    simp only [List.cons_append, List.head?_cons, Option.some.injEq] at h
    exact digit_ne_minus (hdig c (List.mem_cons_self c t)) h

/-- The body of the scanner's number test after the optional minus has
been skipped (a proof-local decomposition of `isNumberTok`; `isNumberTok`
is definitionally this body applied after the minus strip). -/
def numBody (s1 : List Char) : Bool :=
  match s1 with
  | [] => false
  | c :: _ =>
    if !isDigit_ c then false
    else
      match s1.dropWhile isDigit_ with
      | [] => true
      | '.' :: r2 =>
        (match r2 with
         | [] => false
         | c2 :: _ => if !isDigit_ c2 then false else r2.dropWhile isDigit_ = [])
      | _ => false

lemma numBody_true : ∀ t : List Char, numBody t = true →
    ∃ ip rest : List Char, ip ≠ [] ∧ (∀ c ∈ ip, isDigit_ c = true) ∧
      (rest = [] ∨ ∃ fp, fp ≠ [] ∧ (∀ c ∈ fp, isDigit_ c = true) ∧ rest = '.' :: fp) ∧
      t = ip ++ rest := by
  intro t h
  rcases t with _ | ⟨c, ct⟩
  · simp [numBody] at h
  · unfold numBody at h
    try dsimp only at h
    by_cases hd : isDigit_ c
    · rw [if_neg (by simp [hd])] at h
      have hsp : (c :: ct).takeWhile isDigit_ ++ (c :: ct).dropWhile isDigit_ = c :: ct :=
        List.takeWhile_append_dropWhile isDigit_ (c :: ct)
      have hip_ne : (c :: ct).takeWhile isDigit_ ≠ [] := by
        rw [List.takeWhile_cons, hd]
        simp
      have hip_dig : ∀ x ∈ (c :: ct).takeWhile isDigit_, isDigit_ x = true :=
        fun x hx => List.mem_takeWhile_imp hx
      split at h
      · rename_i heq
        refine ⟨(c :: ct).takeWhile isDigit_, [], hip_ne, hip_dig, Or.inl rfl, ?_⟩
        have ht := hsp.symm
        rw [heq, List.append_nil] at ht
        rw [List.append_nil]
        exact ht
      · rename_i r2 heq
        rcases r2 with _ | ⟨c2, r4⟩
        · simp at h
        · try dsimp only at h
          by_cases hd2 : isDigit_ c2
          · rw [if_neg (by simp [hd2])] at h
            have hall : ∀ x ∈ c2 :: r4, isDigit_ x = true :=
              List.dropWhile_eq_nil_iff.mp (of_decide_eq_true h)
            refine ⟨(c :: ct).takeWhile isDigit_, '.' :: c2 :: r4, hip_ne, hip_dig,
              Or.inr ⟨c2 :: r4, by simp, hall, rfl⟩, ?_⟩
            have ht := hsp.symm
            rw [heq] at ht
            exact ht
          · rw [if_pos (by simp [hd2])] at h
            simp at h
      · simp at h
    · rw [if_pos (by simp [hd])] at h
      simp at h

lemma numBody_of_grammar (ip rest : List Char) (hne : ip ≠ [])
    (hdig : ∀ c ∈ ip, isDigit_ c = true)
    (hrest : rest = [] ∨ ∃ fp, fp ≠ [] ∧ (∀ c ∈ fp, isDigit_ c = true) ∧ rest = '.' :: fp) :
    numBody (ip ++ rest) = true := by
  have hhead : ∀ c2, rest.head? = some c2 → isDigit_ c2 = false := by
    rcases hrest with rfl | ⟨fp, _, _, rfl⟩
    · intro c2 hc2; simp at hc2
    · intro c2 hc2
      simp only [List.head?_cons, Option.some.injEq] at hc2
      subst hc2
      decide
  have hsplit := takeWhile_dropWhile_append ip rest hdig hhead
  rcases ip with _ | ⟨c, ipt⟩
  · exact absurd rfl hne
  have hcd : isDigit_ c = true := hdig c (List.mem_cons_self c ipt)
  unfold numBody
  rw [List.cons_append]
  try dsimp only
  rw [if_neg (by simp [hcd]), ← List.cons_append, hsplit.2]
  rcases hrest with rfl | ⟨fp, hfp_ne, hfp_dig, rfl⟩
  · rfl
  · rcases fp with _ | ⟨c2, f4⟩
    · exact absurd rfl hfp_ne
    have hcd2 : isDigit_ c2 = true := hfp_dig c2 (List.mem_cons_self c2 f4)
    show (if (!isDigit_ c2) = true then false
      else decide ((c2 :: f4).dropWhile isDigit_ = [])) = true
    rw [if_neg (by simp [hcd2])]
    exact decide_eq_true (List.dropWhile_eq_nil_iff.mpr hfp_dig)

/-- The scanner's number test agrees exactly with the spec's grammar. -/
lemma isNumberTok_iff_grammar (s : List Char) :
    isNumberTok s = true ↔ specNumberGrammar s := by
  have hshape : (¬ s.head? = some '-' → isNumberTok s = numBody s) ∧
      (s.head? = some '-' → isNumberTok s = numBody s.tail) := by
    constructor
    · intro hm
      unfold isNumberTok numBody
      rw [if_neg hm]
    · intro hm
      unfold isNumberTok numBody
      rw [if_pos hm]
  constructor
  · intro h
    by_cases hm : s.head? = some '-'
    · rw [hshape.2 hm] at h
      have hsplit : s = '-' :: s.tail := by
        rcases s with _ | ⟨a, u⟩
        · simp at hm
        · simp only [List.head?_cons, Option.some.injEq] at hm
          rw [hm]
          rfl
      rcases numBody_true s.tail h with ⟨ip, rest, hne, hdig, hrest, hteq⟩
      exact ⟨ip, rest, hne, hdig, hrest, Or.inr (by rw [hsplit, hteq])⟩
    · rw [hshape.1 hm] at h
      rcases numBody_true s h with ⟨ip, rest, hne, hdig, hrest, hteq⟩
      exact ⟨ip, rest, hne, hdig, hrest, Or.inl hteq⟩
  · rintro ⟨ip, rest, hne, hdig, hrest, hs⟩
    rcases hs with rfl | rfl
    · rw [hshape.1 (head?_ne_minus_of_digits hne hdig)]
      exact numBody_of_grammar ip rest hne hdig hrest
    · have hm : ('-' :: (ip ++ rest)).head? = some '-' := rfl
      rw [hshape.2 hm]
      exact numBody_of_grammar ip rest hne hdig hrest

lemma parseDecimal_int (ip : List Char) (hne : ip ≠ [])
    (hdig : ∀ c ∈ ip, isDigit_ c = true) :
    parseDecimal ip = { m := (natOfDigits ip : Nat), e := 0 } ∧
    parseDecimal ('-' :: ip) = { m := -(natOfDigits ip : Nat), e := 0 } := by
  have hdw : ip.dropWhile isDigit_ = [] := List.dropWhile_eq_nil_iff.mpr hdig
  have htw : ip.takeWhile isDigit_ = ip := by
    have h := List.takeWhile_append_dropWhile isDigit_ ip
    rw [hdw, List.append_nil] at h
    exact h
  have hm : ¬ ip.head? = some '-' := by
    have h := @head?_ne_minus_of_digits ip [] hne hdig
    rwa [List.append_nil] at h
  constructor
  · simp only [parseDecimal]
    rw [if_neg hm, if_neg hm, hdw, htw]
    rfl
  · simp only [parseDecimal]
    rw [if_pos (show (('-' :: ip : List Char)).head? = some '-' from rfl),
      if_pos (show (('-' :: ip : List Char)).head? = some '-' from rfl),
      List.tail_cons, hdw, htw]
    rfl

lemma parseDecimal_frac (ip fp : List Char) (hne : ip ≠ [])
    (hdig : ∀ c ∈ ip, isDigit_ c = true) (hfne : fp ≠ [])
    (hfdig : ∀ c ∈ fp, isDigit_ c = true) :
    parseDecimal (ip ++ '.' :: fp) =
      { m := (natOfDigits ip * (pow10 fp.length).toNat + natOfDigits fp : Nat), e := fp.length } ∧
    parseDecimal ('-' :: (ip ++ '.' :: fp)) =
      { m := -(natOfDigits ip * (pow10 fp.length).toNat + natOfDigits fp : Nat), e := fp.length } := by
  have hhead : ∀ c2, (('.' :: fp : List Char)).head? = some c2 → isDigit_ c2 = false := by
    intro c2 hc2
    simp only [List.head?_cons, Option.some.injEq] at hc2
    subst hc2
    decide
  have hsplit := takeWhile_dropWhile_append ip ('.' :: fp) hdig hhead
  have hfdw : fp.dropWhile isDigit_ = [] := List.dropWhile_eq_nil_iff.mpr hfdig
  have hftw : fp.takeWhile isDigit_ = fp := by
    have h := List.takeWhile_append_dropWhile isDigit_ fp
    rw [hfdw, List.append_nil] at h
    exact h
  have hm : ¬ (ip ++ '.' :: fp).head? = some '-' := head?_ne_minus_of_digits hne hdig
  constructor
  · simp only [parseDecimal]
    rw [if_neg hm, if_neg hm, hsplit.2,
      if_pos (show (('.' :: fp : List Char)).head? = some '.' from rfl),
      List.tail_cons, hsplit.1, hftw]
  · simp only [parseDecimal]
    rw [if_pos (show (('-' :: (ip ++ '.' :: fp) : List Char)).head? = some '-' from rfl),
      if_pos (show (('-' :: (ip ++ '.' :: fp) : List Char)).head? = some '-' from rfl),
      List.tail_cons, hsplit.2,
      if_pos (show (('.' :: fp : List Char)).head? = some '.' from rfl),
      List.tail_cons, hsplit.1, hftw]

/-- C2: a trimmed unquoted scalar other than the special words is
classified NUMBER exactly when it matches the spec's number grammar
(optional leading minus, one or more digits, optionally a single dot with
one or more digits, nothing left over) and STRING otherwise; a NUMBER
token parses to a Number carrying the exact decimal magnitude of the
literal; e.g. 42, -100 and 3.14 parse as Numbers while 1.2.3, 4B and
555 123 4567 parse as Strings. -/
theorem number_grammar_classification :
    (∀ s : List Char,
      s ≠ "true".data → s ≠ "false".data → s ≠ "null".data → s ≠ "~".data →
      ((classifyScalar s = .TOKEN_NUMBER ↔ specNumberGrammar s) ∧
        (¬ specNumberGrammar s → classifyScalar s = .TOKEN_STRING))) ∧
    (∀ ip fp : List Char, ip ≠ [] → (∀ c ∈ ip, isDigit_ c = true) → fp ≠ [] →
      (∀ c ∈ fp, isDigit_ c = true) →
      parseDecimal ip = { m := (natOfDigits ip : Nat), e := 0 } ∧
      parseDecimal ('-' :: ip) = { m := -(natOfDigits ip : Nat), e := 0 } ∧
      parseDecimal (ip ++ '.' :: fp) =
        { m := (natOfDigits ip * (pow10 fp.length).toNat + natOfDigits fp : Nat),
          e := fp.length } ∧
      parseDecimal ('-' :: (ip ++ '.' :: fp)) =
        { m := -(natOfDigits ip * (pow10 fp.length).toNat + natOfDigits fp : Nat),
          e := fp.length }) ∧
    (∀ (p : PSt) (v : Value) (p2 : PSt), p.cur.type = .TOKEN_NUMBER →
      parseScalar p = .ok (v, p2) → v = .number (parseDecimal p.cur.value)) ∧
    (parseYaml "a: 42".data = .ok (.mapping (.cons "a".data (.number ⟨42, 0⟩) .nil)) ∧
     parseYaml "a: -100".data = .ok (.mapping (.cons "a".data (.number ⟨-100, 0⟩) .nil)) ∧
     parseYaml "a: 3.14".data = .ok (.mapping (.cons "a".data (.number ⟨314, 2⟩) .nil)) ∧
     parseYaml "a: 1.2.3".data = .ok (.mapping (.cons "a".data (.str "1.2.3".data) .nil)) ∧
     parseYaml "a: 4B".data = .ok (.mapping (.cons "a".data (.str "4B".data) .nil)) ∧
     parseYaml "a: 555 123 4567".data =
       .ok (.mapping (.cons "a".data (.str "555 123 4567".data) .nil))) := by
  refine ⟨?_, ?_, ?_, by decide, by decide, by decide, by decide, by decide, by decide⟩
  · intro s h1 h2 h3 h4
    have hcls : classifyScalar s = (if isNumberTok s then .TOKEN_NUMBER else .TOKEN_STRING) := by
      unfold classifyScalar
      rw [if_neg (not_or.mpr ⟨h1, h2⟩), if_neg (not_or.mpr ⟨h3, h4⟩)]
    constructor
    · rw [hcls]
      constructor
      · intro h
        by_cases hn : isNumberTok s = true
        · exact (isNumberTok_iff_grammar s).mp hn
        · rw [if_neg hn] at h
          exact absurd h (by decide)
      · intro hg
        rw [if_pos ((isNumberTok_iff_grammar s).mpr hg)]
    · intro hng
      rw [hcls, if_neg (fun hh => hng ((isNumberTok_iff_grammar s).mp hh))]
  · intro ip fp hne hdig hfne hfdig
    exact ⟨(parseDecimal_int ip hne hdig).1, (parseDecimal_int ip hne hdig).2,
      (parseDecimal_frac ip fp hne hdig hfne hfdig).1,
      (parseDecimal_frac ip fp hne hdig hfne hfdig).2⟩
  · intro p v p2 ht h
    unfold parseScalar at h
    rw [ht] at h
    dsimp only at h
    rcases hpa : padvance p with e | p3 <;> rw [hpa] at h
    · rw [bind_error_eq] at h
      exact absurd h (by simp)
    · rw [bind_ok_eq] at h
      simp only [Except.ok.injEq, Prod.mk.injEq] at h
      exact h.1.symm

/-- C2 witness: 3.14 is in the grammar, and its exact magnitude. -/
theorem number_grammar_classification_witness :
    specNumberGrammar "3.14".data ∧
    parseDecimal ("3".data ++ '.' :: "14".data) =
      { m := (natOfDigits "3".data * (pow10 ("14".data).length).toNat + natOfDigits "14".data : Nat),
        e := ("14".data).length } := by
  constructor
  · exact (number_grammar_classification.1 "3.14".data (by decide) (by decide) (by decide)
      (by decide)).1.mp (by decide)
  · exact (number_grammar_classification.2.1 "3".data "14".data (by decide) (by decide)
      (by decide) (by decide)).2.2.1


/-! ### C7: flow and block forms parse to equal trees -/

/-- C7: the flow-style input `config: \x7bdebug: true, port: 8080\x7d` and the
equivalent block form with `debug: true` and `port: 8080` as nested
indented lines parse to the same Value tree, and the two results are
equal under the variant equality relation `yamlEq`
(`YamlValue::operator==`). -/
theorem flow_block_equal :
    parseYaml "config: \x7bdebug: true, port: 8080\x7d".data =
      .ok (.mapping (.cons "config".data
        (.mapping (.cons "debug".data (.boolean true)
          (.cons "port".data (.number { m := 8080, e := 0 }) .nil))) .nil)) ∧
    parseYaml "config:\n  debug: true\n  port: 8080".data =
      .ok (.mapping (.cons "config".data
        (.mapping (.cons "debug".data (.boolean true)
          (.cons "port".data (.number { m := 8080, e := 0 }) .nil))) .nil)) ∧
    Value.yamlEq
      (.mapping (.cons "config".data
        (.mapping (.cons "debug".data (.boolean true)
          (.cons "port".data (.number { m := 8080, e := 0 }) .nil))) .nil))
      (.mapping (.cons "config".data
        (.mapping (.cons "debug".data (.boolean true)
          (.cons "port".data (.number { m := 8080, e := 0 }) .nil))) .nil)) = true := by
  refine ⟨rfl, rfl, by decide⟩


/-! ### C5: unterminated flow collections -/

/-- C5 counterexample: the input `obj: \x7bkey` reaches end of input inside
a flow mapping before the closing brace, yet the parse fails with
`Expected ':' after key` (the missing-colon error of `parseFlowMap_`),
which is neither of the unterminated-collection errors `Expected ']'` /
`Expected '\x7d'`; the claim's universal form therefore fails for inputs
where end of input lands mid-entry. -/
theorem flow_unterminated_cex :
    parseYaml "obj: \x7bkey".data =
      .error { msg := "Expected ':' after key".data, line := 1, col := 10 } ∧
    "Expected ':' after key".data ≠ "Expected ']'".data ∧
    "Expected ':' after key".data ≠ "Expected '\x7d'".data :=
  ⟨rfl, by decide, by decide⟩

/-- C5 (amended): a flow sequence or flow mapping that reaches end of
input at an element boundary (where the closing bracket or brace — or a
comma — is expected) fails with the unterminated-collection error
`Expected ']'` / `Expected '\x7d'` at the end-of-input position, and no
tree is returned; shown on the claim's two concrete inputs and
universally at the parser level: whenever the element loop exits with
the EOF token current, `parseFlowSeq_` (resp. `parseFlowMap_`) raises
exactly that error.  (When end of input instead lands inside an entry,
the parse still fails, but with the entry's own error — see the
counterexample.) -/
theorem flow_unterminated_eof :
    parseYaml "array: [1, 2, 3".data =
      .error { msg := "Expected ']'".data, line := 1, col := 16 } ∧
    parseYaml "obj: \x7bkey: value".data =
      .error { msg := "Expected '\x7d'".data, line := 1, col := 17 } ∧
    (∀ (fuel : Nat) (p0 p : PSt) (seq : ValueList) (p2 : PSt),
      p0.cur.type = .TOKEN_LBRACKET → padvance p0 = .ok p →
      (parsers fuel).flowSeqLoop .nil p = .ok (seq, p2) → p2.cur.type = .TOKEN_EOF →
      (parsers (fuel + 1)).flowSeq p0 =
        .error { msg := "Expected ']'".data, line := p2.cur.line, col := p2.cur.col }) ∧
    (∀ (fuel : Nat) (p0 p : PSt) (map : EntryList) (p2 : PSt),
      p0.cur.type = .TOKEN_LBRACE → padvance p0 = .ok p →
      (parsers fuel).flowMapLoop .nil p = .ok (map, p2) → p2.cur.type = .TOKEN_EOF →
      (parsers (fuel + 1)).flowMap p0 =
        .error { msg := "Expected '\x7d'".data, line := p2.cur.line, col := p2.cur.col }) := by
  refine ⟨rfl, rfl, ?_, ?_⟩
  · intro fuel p0 p seq p2 h0 hadv hloop heof
    show (do
      let p ← expectTok .TOKEN_LBRACKET "Expected '['".data p0
      let r ← (parsers fuel).flowSeqLoop .nil p
      match r with
      | (seq, p2) => do
        let p3 ← expectTok .TOKEN_RBRACKET "Expected ']'".data p2
        .ok ((.sequence seq : Value), p3)) =
      .error { msg := "Expected ']'".data, line := p2.cur.line, col := p2.cur.col }
    rw [show expectTok .TOKEN_LBRACKET "Expected '['".data p0 = .ok p by
          unfold expectTok; rw [if_pos h0]; exact hadv,
        bind_ok_eq, hloop, bind_ok_eq]
    dsimp only
    rw [show expectTok .TOKEN_RBRACKET "Expected ']'".data p2 =
          .error { msg := "Expected ']'".data, line := p2.cur.line, col := p2.cur.col } by
          unfold expectTok
          rw [if_neg (by rw [heof]; exact fun hc => TokType.noConfusion hc)],
        bind_error_eq]
  · intro fuel p0 p map p2 h0 hadv hloop heof
    show (do
      let p ← expectTok .TOKEN_LBRACE "Expected '\x7b'".data p0
      let r ← (parsers fuel).flowMapLoop .nil p
      match r with
      | (map, p2) => do
        let p3 ← expectTok .TOKEN_RBRACE "Expected '\x7d'".data p2
        .ok ((.mapping map : Value), p3)) =
      .error { msg := "Expected '\x7d'".data, line := p2.cur.line, col := p2.cur.col }
    rw [show expectTok .TOKEN_LBRACE "Expected '\x7b'".data p0 = .ok p by
          unfold expectTok; rw [if_pos h0]; exact hadv,
        bind_ok_eq, hloop, bind_ok_eq]
    dsimp only
    rw [show expectTok .TOKEN_RBRACE "Expected '\x7d'".data p2 =
          .error { msg := "Expected '\x7d'".data, line := p2.cur.line, col := p2.cur.col } by
          unfold expectTok
          rw [if_neg (by rw [heof]; exact fun hc => TokType.noConfusion hc)],
        bind_error_eq]

/-- C5 witness: the universal parts applied to concrete parser states —
an opening bracket (resp. brace) whose very next token is EOF, so the
element loop exits immediately and the unterminated-collection error is
raised at the EOF position. -/
theorem flow_unterminated_eof_witness :
    (parsers 7).flowSeq
      ⟨⟨[], 1, 2, false, [0], []⟩, mkTok .TOKEN_LBRACKET [] 1 1, mkTok .TOKEN_EOF [] 1 2⟩ =
      .error { msg := "Expected ']'".data, line := 1, col := 2 } ∧
    (parsers 7).flowMap
      ⟨⟨[], 1, 2, false, [0], []⟩, mkTok .TOKEN_LBRACE [] 1 1, mkTok .TOKEN_EOF [] 1 2⟩ =
      .error { msg := "Expected '\x7d'".data, line := 1, col := 2 } := by
  constructor
  · exact flow_unterminated_eof.2.2.1 6
      ⟨⟨[], 1, 2, false, [0], []⟩, mkTok .TOKEN_LBRACKET [] 1 1, mkTok .TOKEN_EOF [] 1 2⟩
      ⟨⟨[], 1, 2, false, [0], []⟩, mkTok .TOKEN_EOF [] 1 2, mkTok .TOKEN_EOF [] 1 2⟩
      .nil
      ⟨⟨[], 1, 2, false, [0], []⟩, mkTok .TOKEN_EOF [] 1 2, mkTok .TOKEN_EOF [] 1 2⟩
      rfl rfl rfl rfl
  · exact flow_unterminated_eof.2.2.2 6
      ⟨⟨[], 1, 2, false, [0], []⟩, mkTok .TOKEN_LBRACE [] 1 1, mkTok .TOKEN_EOF [] 1 2⟩
      ⟨⟨[], 1, 2, false, [0], []⟩, mkTok .TOKEN_EOF [] 1 2, mkTok .TOKEN_EOF [] 1 2⟩
      .nil
      ⟨⟨[], 1, 2, false, [0], []⟩, mkTok .TOKEN_EOF [] 1 2, mkTok .TOKEN_EOF [] 1 2⟩
      rfl rfl rfl rfl


/-! ### C1: the flat safe class and its round trip

The claim quantifies over every tree; the counterexample below shows it
fails already for `Value.str ['-']`.  The amended statement restricts to
the flat class defined here: scalar documents, one-level sequences and
one-level mappings whose keys are plain lowercase words in strictly
ascending order and whose leaf values are Nil, Booleans, in-int-range
integral Numbers, or plain lowercase-word Strings. -/

def letterChar (c : Char) : Bool := 'a' ≤ c && c ≤ 'z'

def plainChar (c : Char) : Bool := letterChar c || isDigit_ c

def letterWord (w : List Char) : Bool := !w.isEmpty && w.all letterChar

/-- A key or string payload that serializes verbatim and scans back as a
plain STRING: a nonempty lowercase word other than the special literals. -/
def safeWord (w : List Char) : Bool :=
  letterWord w && !(w == "true".data) && !(w == "false".data) && !(w == "null".data)

/-- The unquoted-scalar texts the round trip runs through: a nonempty run
of letters and digits, possibly behind a leading minus. -/
def scalWord (w : List Char) : Bool :=
  if w.head? = some '-' then !w.tail.isEmpty && w.tail.all plainChar
  else !w.isEmpty && w.all plainChar

/-- The serialized text of a safe leaf. -/
def scalarChars : Value → List Char
  | .nil => "null".data
  | .boolean b => if b then "true".data else "false".data
  | .number d => intChars d.m
  | .str s => s
  | _ => []

/-- Safe leaf values. -/
def safeScalar : Value → Bool
  | .nil => true
  | .boolean _ => true
  | .number d => d.e == 0 && decide (intMin ≤ d.m) && decide (d.m ≤ intMax)
  | .str s => safeWord s
  | _ => false

def safeItems : ValueList → Bool
  | .nil => true
  | .cons v tl => safeScalar v && safeItems tl

/-- Safe mapping entries: safe keys in strictly ascending `charsLt` order
(the order `std::map` iteration, hence serialization, produces), safe
leaf values. -/
def safeEntries : EntryList → Bool
  | .nil => true
  | .cons k v tl =>
    safeWord k && safeScalar v &&
    (match tl with
     | .nil => true
     | .cons k2 _ _ => charsLt k k2) && safeEntries tl

/-- The flat class of the amended round-trip claim. -/
def flatSafe : Value → Bool
  | .sequence .nil => false
  | .sequence items => safeItems items
  | .mapping .nil => false
  | .mapping entries => safeEntries entries
  | v => safeScalar v

/-! #### Token streams -/

/-- A scanner state that will deliver EOF tokens forever. -/
def eofLike (st : ScanSt) : Prop := ∃ l c b, st = ⟨[], l, c, b, [0], []⟩

/-- The scanner at `st` delivers the given (type, text) token sequence and
is then exhausted. -/
def ScDel : ScanSt → List (TokType × List Char) → Prop
  | st, [] => eofLike st
  | st, a :: ts =>
    ∃ t st2, scnext st = .ok (t, st2) ∧ t.type = a.1 ∧ t.value = a.2 ∧ ScDel st2 ts

/-- The parser state holds the given remaining token sequence (first two
in the lookahead slots, the rest still in the scanner). -/
def PAt : PSt → List (TokType × List Char) → Prop
  | p, [] => p.cur.type = .TOKEN_EOF ∧ p.nxt.type = .TOKEN_EOF ∧ eofLike p.sc
  | p, [a] => p.cur.type = a.1 ∧ p.cur.value = a.2 ∧ p.nxt.type = .TOKEN_EOF ∧ eofLike p.sc
  | p, a :: b :: ts =>
    p.cur.type = a.1 ∧ p.cur.value = a.2 ∧ p.nxt.type = b.1 ∧ p.nxt.value = b.2 ∧
      ScDel p.sc ts

/-- The token sequence of a serialized flat mapping. -/
def entryToks : EntryList → List (TokType × List Char)
  | .nil => []
  | .cons k v tl =>
    (.TOKEN_STRING, k) :: (.TOKEN_COLON, []) ::
      (classifyScalar (scalarChars v), scalarChars v) ::
      (match tl with
       | .nil => []
       | .cons _ _ _ => (.TOKEN_NEWLINE, ([] : List Char)) :: entryToks tl)

/-- The token sequence of a serialized flat sequence. -/
def itemToks : ValueList → List (TokType × List Char)
  | .nil => []
  | .cons v tl =>
    (.TOKEN_DASH, ([] : List Char)) ::
      (classifyScalar (scalarChars v), scalarChars v) ::
      (match tl with
       | .nil => []
       | .cons _ _ => (.TOKEN_NEWLINE, ([] : List Char)) :: itemToks tl)

/-- The token sequence of a serialized flat document. -/
def topToks : Value → List (TokType × List Char)
  | .sequence items => itemToks items
  | .mapping es => entryToks es
  | v => [(classifyScalar (scalarChars v), scalarChars v)]

/-! #### The loop folds and their list forms -/

/-- What `parseMapping_`'s loop builds: successive `mapInsert`s. -/
def mapFold : EntryList → EntryList → EntryList
  | map, .nil => map
  | map, .cons k v tl => mapFold (mapInsert map k v) tl

/-- What `parseSequence_`'s loop builds: successive `push_back`s. -/
def pushFold : ValueList → ValueList → ValueList
  | s, .nil => s
  | s, .cons v tl => pushFold (s.push v) tl

def entryAppend : EntryList → EntryList → EntryList
  | .nil, es => es
  | .cons k v tl, es => .cons k v (entryAppend tl es)

def vappend : ValueList → ValueList → ValueList
  | .nil, l => l
  | .cons h t, l => .cons h (vappend t l)

/-- Every key of the map sorts strictly below `k`. -/
def allBelow : EntryList → List Char → Bool
  | .nil, _ => true
  | .cons k0 _ tl, k => charsLt k0 k && allBelow tl k

/-- Every key of the map sorts strictly below the first key of `es`. -/
def belowFirst (map : EntryList) : EntryList → Bool
  | .nil => true
  | .cons k _ _ => allBelow map k

lemma charsLt_ne : ∀ a b : List Char, charsLt a b = true → a ≠ b
  | [], b :: bs, _ => List.noConfusion
  | a :: as, b :: bs, h => by
    by_cases hab : a = b
    · rw [charsLt, if_pos hab] at h
      intro hc
      exact charsLt_ne as bs h (List.cons.inj hc).2
    · exact fun hc => hab (List.cons.inj hc).1

lemma charsLt_asymm : ∀ a b : List Char, charsLt a b = true → charsLt b a = false
  | [], b :: bs, _ => rfl
  | a :: as, b :: bs, h => by
    by_cases hab : a = b
    · rw [charsLt, if_pos hab] at h
      rw [charsLt, if_pos hab.symm]
      exact charsLt_asymm as bs h
    · rw [charsLt, if_neg hab] at h
      rw [charsLt, if_neg (Ne.symm hab)]
      simp only [decide_eq_true_eq] at h
      simp only [decide_eq_false_iff_not]
      exact not_lt_of_lt h

lemma charsLt_trans : ∀ a b c : List Char, charsLt a b = true → charsLt b c = true →
    charsLt a c = true
  | _, _, [], _, hbc => by rw [charsLt] at hbc; exact absurd hbc (by simp)
  | [], b :: bs, c :: cs, _, _ => rfl
  | a :: as, b :: bs, c :: cs, hab, hbc => by
    rw [charsLt] at hab hbc ⊢
    by_cases h1 : a = b
    · rw [if_pos h1] at hab
      by_cases h2 : b = c
      · rw [if_pos h2] at hbc
        rw [if_pos (h1.trans h2)]
        exact charsLt_trans as bs cs hab hbc
      · rw [if_neg h2] at hbc
        rw [h1, if_neg h2]
        exact hbc
    · rw [if_neg h1] at hab
      simp only [decide_eq_true_eq] at hab
      by_cases h2 : b = c
      · rw [← h2, if_neg h1]
        simp only [decide_eq_true_eq]
        exact hab
      · rw [if_neg h2] at hbc
        simp only [decide_eq_true_eq] at hbc
        have hac : a < c := lt_trans hab hbc
        rw [if_neg (ne_of_lt hac)]
        simp only [decide_eq_true_eq]
        exact hac

lemma mapInsert_append : ∀ (map : EntryList) (k : List Char) (v : Value),
    allBelow map k = true → mapInsert map k v = entryAppend map (.cons k v .nil)
  | .nil, k, v, _ => rfl
  | .cons k0 v0 tl, k, v, h => by
    rw [allBelow, Bool.and_eq_true] at h
    rw [mapInsert]
    rw [if_neg (by rw [charsLt_asymm k0 k h.1]; exact Bool.false_ne_true)]
    rw [if_neg (Ne.symm (charsLt_ne k0 k h.1))]
    rw [mapInsert_append tl k v h.2]
    rfl

lemma allBelow_mono : ∀ (map : EntryList) (k k2 : List Char),
    allBelow map k = true → charsLt k k2 = true → allBelow map k2 = true
  | .nil, _, _, _, _ => rfl
  | .cons k0 v0 tl, k, k2, h, hlt => by
    rw [allBelow, Bool.and_eq_true] at h
    rw [allBelow, Bool.and_eq_true]
    exact ⟨charsLt_trans k0 k k2 h.1 hlt, allBelow_mono tl k k2 h.2 hlt⟩

lemma allBelow_append : ∀ (map : EntryList) (k : List Char) (v : Value) (k2 : List Char),
    allBelow map k2 = true → charsLt k k2 = true →
    allBelow (entryAppend map (.cons k v .nil)) k2 = true
  | .nil, k, v, k2, _, hlt => by
    rw [entryAppend, allBelow, allBelow, Bool.and_eq_true]
    exact ⟨hlt, rfl⟩
  | .cons k0 v0 tl, k, v, k2, h, hlt => by
    rw [allBelow, Bool.and_eq_true] at h
    rw [entryAppend, allBelow, Bool.and_eq_true]
    exact ⟨h.1, allBelow_append tl k v k2 h.2 hlt⟩

lemma entryAppend_mid : ∀ (map : EntryList) (k : List Char) (v : Value) (es : EntryList),
    entryAppend (entryAppend map (.cons k v .nil)) es = entryAppend map (.cons k v es)
  | .nil, _, _, _ => rfl
  | .cons k0 v0 tl, k, v, es => by
    rw [entryAppend, entryAppend, entryAppend]
    rw [entryAppend_mid tl k v es]

lemma entryAppend_nil : ∀ map : EntryList, entryAppend map .nil = map
  | .nil => rfl
  | .cons k v tl => by rw [entryAppend, entryAppend_nil tl]

/-- On strictly ascending entries (with every existing key below the first
new one) the loop's insert-folding is plain concatenation. -/
lemma mapFold_sorted : ∀ (es map : EntryList), safeEntries es = true →
    belowFirst map es = true → mapFold map es = entryAppend map es
  | .nil, map, _, _ => by
    rw [mapFold]
    exact (entryAppend_nil map).symm
  | .cons k v tl, map, hs, hb => by
    rw [safeEntries.eq_def] at hs
    dsimp only at hs
    rw [Bool.and_eq_true, Bool.and_eq_true, Bool.and_eq_true] at hs
    rw [belowFirst] at hb
    rw [mapFold, mapInsert_append map k v hb]
    cases tl with
    | nil => rw [mapFold]
    | cons k2 v2 tl2 =>
      dsimp only at hs
      have hlt : charsLt k k2 = true := hs.1.2
      rw [mapFold_sorted (.cons k2 v2 tl2) (entryAppend map (.cons k v .nil)) hs.2
        (by rw [belowFirst]
            exact allBelow_append map k v k2 (allBelow_mono map k k2 hb hlt) hlt)]
      exact entryAppend_mid map k v (.cons k2 v2 tl2)

lemma vappend_nil : ∀ s : ValueList, vappend s .nil = s
  | .nil => rfl
  | .cons h t => by rw [vappend, vappend_nil t]

lemma push_eq_vappend : ∀ (s : ValueList) (v : Value), s.push v = vappend s (.cons v .nil)
  | .nil, _ => rfl
  | .cons h t, v => by rw [ValueList.push, vappend, push_eq_vappend t v]

lemma vappend_mid : ∀ (s : ValueList) (v : Value) (l : ValueList),
    vappend (vappend s (.cons v .nil)) l = vappend s (.cons v l)
  | .nil, _, _ => rfl
  | .cons h t, v, l => by rw [vappend, vappend, vappend, vappend_mid t v l]

lemma pushFold_eq : ∀ (items s : ValueList), pushFold s items = vappend s items
  | .nil, s => by rw [pushFold, vappend_nil]
  | .cons v tl, s => by
    rw [pushFold, push_eq_vappend, pushFold_eq tl, vappend_mid]


/-! #### Decimal rendering round trip -/

lemma digitChar_toNat (k : Nat) (h : k < 10) : (digitChar k).toNat = 48 + k := by
  interval_cases k <;> decide

lemma digitChar_digit (k : Nat) (h : k < 10) : isDigit_ (digitChar k) = true := by
  interval_cases k <;> decide

lemma natOfDigits_append_one (l : List Char) (c : Char) :
    natOfDigits (l ++ [c]) = 10 * natOfDigits l + (c.toNat - 48) := by
  unfold natOfDigits
  rw [List.foldl_append]
  rfl

lemma natOfDigits_natCharsAux : ∀ fuel n, n < fuel → natOfDigits (natCharsAux fuel n) = n
  | 0, n, h => absurd h (Nat.not_lt_zero n)
  | fuel + 1, n, h => by
    rw [natCharsAux]
    by_cases h10 : n < 10
    · rw [if_pos h10]
      show 10 * 0 + ((digitChar n).toNat - 48) = n
      rw [digitChar_toNat n h10]
      omega
    · rw [if_neg h10, natOfDigits_append_one,
        natOfDigits_natCharsAux fuel (n / 10)
          (by
            have h1 : n / 10 < n := Nat.div_lt_self (by omega) (by omega)
            omega),
        digitChar_toNat (n % 10) (Nat.mod_lt n (by omega))]
      omega

lemma natCharsAux_digits : ∀ fuel n, (natCharsAux fuel n).all isDigit_ = true
  | 0, n => rfl
  | fuel + 1, n => by
    rw [natCharsAux]
    by_cases h10 : n < 10
    · rw [if_pos h10]
      simp [digitChar_digit n h10]
    · rw [if_neg h10, List.all_append]
      rw [natCharsAux_digits fuel (n / 10)]
      simp [digitChar_digit (n % 10) (Nat.mod_lt n (by omega))]

lemma natChars_ne_nil (n : Nat) : natChars n ≠ [] := by
  rw [natChars, natCharsAux]
  by_cases h10 : n < 10
  · rw [if_pos h10]
    exact fun h => List.noConfusion h
  · rw [if_neg h10]
    simp

lemma natOfDigits_natChars (n : Nat) : natOfDigits (natChars n) = n :=
  natOfDigits_natCharsAux (n + 1) n (Nat.lt_succ_self n)

lemma natChars_digits (n : Nat) : (natChars n).all isDigit_ = true :=
  natCharsAux_digits (n + 1) n

lemma digit_head_ne_minus {w : List Char} (hne : w ≠ [])
    (hdig : w.all isDigit_ = true) : ¬ w.head? = some '-' := by
  cases w with
  | nil => exact absurd rfl hne
  | cons c t =>
    intro h
    rw [List.head?_cons, Option.some.injEq] at h
    rw [List.all_cons, Bool.and_eq_true] at hdig
    rw [h] at hdig
    exact absurd hdig.1 (by decide)

lemma isNumberTok_digits (w : List Char) (hne : w ≠ [])
    (hdig : w.all isDigit_ = true) : isNumberTok w = true := by
  have hdw : w.dropWhile isDigit_ = [] :=
    List.dropWhile_eq_nil_iff.mpr (fun c hc => List.all_eq_true.mp hdig c hc)
  cases w with
  | nil => exact absurd rfl hne
  | cons c t =>
    rw [List.all_cons, Bool.and_eq_true] at hdig
    rw [isNumberTok]
    rw [if_neg (digit_head_ne_minus (fun h => List.noConfusion h)
      (by rw [List.all_cons, Bool.and_eq_true]; exact hdig))]
    dsimp only
    rw [hdig.1]
    rw [hdw]
    rfl

lemma isNumberTok_neg_digits (w : List Char) (hne : w ≠ [])
    (hdig : w.all isDigit_ = true) : isNumberTok ('-' :: w) = true := by
  have hdw : w.dropWhile isDigit_ = [] :=
    List.dropWhile_eq_nil_iff.mpr (fun c hc => List.all_eq_true.mp hdig c hc)
  cases w with
  | nil => exact absurd rfl hne
  | cons c t =>
    rw [List.all_cons, Bool.and_eq_true] at hdig
    rw [isNumberTok]
    rw [if_pos (show (('-' :: c :: t : List Char)).head? = some '-' from rfl)]
    rw [List.tail_cons]
    dsimp only
    rw [hdig.1]
    rw [hdw]
    rfl

lemma classify_digits (w : List Char) (hne : w ≠ [])
    (hdig : w.all isDigit_ = true) : classifyScalar w = .TOKEN_NUMBER := by
  have hmem : ∀ c ∈ w, isDigit_ c = true := fun c hc => List.all_eq_true.mp hdig c hc
  have hnt : ¬ (w = "true".data ∨ w = "false".data) := by
    rintro (h | h) <;> (subst h)
    · exact absurd (hmem 't' (by decide)) (by decide)
    · exact absurd (hmem 'f' (by decide)) (by decide)
  have hnn : ¬ (w = "null".data ∨ w = "~".data) := by
    rintro (h | h) <;> (subst h)
    · exact absurd (hmem 'n' (by decide)) (by decide)
    · exact absurd (hmem '~' (by decide)) (by decide)
  rw [classifyScalar, if_neg hnt, if_neg hnn, isNumberTok_digits w hne hdig]
  rfl

lemma classify_neg_digits (w : List Char) (hne : w ≠ [])
    (hdig : w.all isDigit_ = true) : classifyScalar ('-' :: w) = .TOKEN_NUMBER := by
  have hnt : ¬ (('-' :: w : List Char) = "true".data ∨ ('-' :: w : List Char) = "false".data) := by
    rintro (h | h) <;> exact absurd (List.cons.inj h).1 (by decide)
  have hnn : ¬ (('-' :: w : List Char) = "null".data ∨ ('-' :: w : List Char) = "~".data) := by
    rintro (h | h) <;> exact absurd (List.cons.inj h).1 (by decide)
  rw [classifyScalar, if_neg hnt, if_neg hnn, isNumberTok_neg_digits w hne hdig]
  rfl

lemma classify_intChars (m : Int) : classifyScalar (intChars m) = .TOKEN_NUMBER := by
  rw [intChars]
  by_cases hm : m < 0
  · rw [if_pos hm]
    exact classify_neg_digits _ (natChars_ne_nil _) (natChars_digits _)
  · rw [if_neg hm]
    exact classify_digits _ (natChars_ne_nil _) (natChars_digits _)

lemma parseDecimal_intChars (m : Int) : parseDecimal (intChars m) = { m := m, e := 0 } := by
  rw [intChars]
  by_cases hm : m < 0
  · rw [if_pos hm]
    rw [(parseDecimal_int (natChars m.natAbs) (natChars_ne_nil _)
      (fun c hc => List.all_eq_true.mp (natChars_digits _) c hc)).2]
    rw [natOfDigits_natChars]
    have : ((m.natAbs : Int)) = -m := Int.ofNat_natAbs_of_nonpos (le_of_lt hm)
    rw [this]
    simp
  · rw [if_neg hm]
    rw [(parseDecimal_int (natChars m.toNat) (natChars_ne_nil _)
      (fun c hc => List.all_eq_true.mp (natChars_digits _) c hc)).1]
    rw [natOfDigits_natChars]
    rw [Int.toNat_of_nonneg (not_lt.mp hm)]

/-! #### Classification of safe words -/

lemma letterChar_spec {c : Char} (h : letterChar c = true) : 'a' ≤ c ∧ c ≤ 'z' := by
  rw [letterChar, Bool.and_eq_true, decide_eq_true_eq, decide_eq_true_eq] at h
  exact h

lemma letter_not_digit {c : Char} (h : letterChar c = true) : isDigit_ c = false := by
  obtain ⟨h1, _⟩ := letterChar_spec h
  rw [isDigit_]
  have : ¬ (c ≤ '9') := fun h9 => absurd (le_trans h1 h9) (by decide)
  simp [this]

lemma safeWord_parts {w : List Char} (h : safeWord w = true) :
    w ≠ [] ∧ w.all letterChar = true ∧
    w ≠ "true".data ∧ w ≠ "false".data ∧ w ≠ "null".data := by
  rw [safeWord, letterWord] at h
  simp only [Bool.and_eq_true] at h
  obtain ⟨⟨⟨⟨hne, hall⟩, ht⟩, hf⟩, hn⟩ := h
  refine ⟨?_, hall, ?_, ?_, ?_⟩
  · intro hc; rw [hc] at hne; exact absurd hne (by decide)
  · intro hc; rw [hc] at ht; exact absurd ht (by decide)
  · intro hc; rw [hc] at hf; exact absurd hf (by decide)
  · intro hc; rw [hc] at hn; exact absurd hn (by decide)

lemma isNumberTok_letters {w : List Char} (hne : w ≠ [])
    (hall : w.all letterChar = true) : isNumberTok w = false := by
  cases w with
  | nil => exact absurd rfl hne
  | cons c t =>
    rw [List.all_cons, Bool.and_eq_true] at hall
    rw [isNumberTok]
    rw [if_neg (show ¬ ((c :: t : List Char)).head? = some '-' from by
      rw [List.head?_cons, Option.some.injEq]
      intro hc
      rw [hc] at hall
      exact absurd hall.1 (by decide))]
    dsimp only
    rw [letter_not_digit hall.1]
    rfl

lemma classify_safeWord {w : List Char} (h : safeWord w = true) :
    classifyScalar w = .TOKEN_STRING := by
  obtain ⟨hne, hall, ht, hf, hn⟩ := safeWord_parts h
  have hmem : ∀ c ∈ w, letterChar c = true := fun c hc => List.all_eq_true.mp hall c hc
  rw [classifyScalar]
  rw [if_neg (by rintro (hc | hc) <;> [exact ht hc; exact hf hc])]
  rw [if_neg (by
    rintro (hc | hc)
    · exact hn hc
    · subst hc
      exact absurd (hmem '~' (by decide)) (by decide))]
  rw [isNumberTok_letters hne hall]
  rfl


/-! #### Serialization of safe leaves -/

lemma contains_false_of_letters : ∀ (s : List Char), s.all letterChar = true →
    ∀ c : Char, letterChar c = false → s.contains c = false
  | [], _, _, _ => rfl
  | x :: t, hall, c, hc => by
    rw [List.all_cons, Bool.and_eq_true] at hall
    rw [List.contains_cons]
    rw [contains_false_of_letters t hall.2 c hc]
    have hxc : (c == x) = false := by
      rw [beq_eq_false_iff_ne]
      intro he
      rw [← he] at hall
      rw [hall.1] at hc
      exact Bool.noConfusion hc
    rw [hxc]
    rfl

lemma getLast?_mem_own : ∀ (s : List Char) (c : Char), s.getLast? = some c → c ∈ s
  | [], c, h => Option.noConfusion h
  | [x], c, h => by
    rw [show ([x] : List Char).getLast? = some x from rfl, Option.some.injEq] at h
    rw [h]
    exact List.mem_singleton_self c
  | x :: y :: t, c, h => by
    rw [List.getLast?_cons_cons] at h
    exact List.mem_cons_of_mem x (getLast?_mem_own (y :: t) c h)

lemma needsQuotes_letters (s : List Char) (hne : s ≠ [])
    (hall : s.all letterChar = true) : needsQuotes s = false := by
  have hcont : ∀ c : Char, letterChar c = false → s.contains c = false :=
    contains_false_of_letters s hall
  obtain ⟨x, t, rfl⟩ := List.exists_cons_of_ne_nil hne
  have hallc := hall
  rw [List.all_cons, Bool.and_eq_true] at hallc
  rw [needsQuotes]
  rw [hcont '\n' (by decide), hcont ':' (by decide), hcont '#' (by decide),
    hcont '[' (by decide), hcont ']' (by decide),
    hcont '\x7b' (by decide), hcont '\x7d' (by decide)]
  have hhd : (((x :: t : List Char)).head? == some ' ') = false := by
    rw [List.head?_cons, beq_eq_false_iff_ne, ne_eq, Option.some.injEq]
    intro he
    rw [he] at hallc
    exact absurd hallc.1 (by decide)
  have hlast : (((x :: t : List Char)).getLast? == some ' ') = false := by
    rcases hgl : ((x :: t : List Char)).getLast? with _ | c
    · rfl
    · rw [beq_eq_false_iff_ne, ne_eq, Option.some.injEq]
      intro he
      have hc := getLast?_mem_own (x :: t) c hgl
      rw [he] at hc
      exact absurd (List.all_eq_true.mp hall ' ' hc) (by decide)
  rw [hhd, hlast]
  rfl

lemma serializeNumber_int_range (d : Dec) (he : d.e = 0) (h1 : intMin ≤ d.m)
    (h2 : d.m ≤ intMax) : serializeNumber d = intChars d.m := by
  obtain ⟨m, e⟩ := d
  dsimp only at he h1 h2
  subst he
  have htr : Dec.trunc { m := m, e := 0 } = m := Int.tdiv_one m
  have hcast : cppIntCast { m := m, e := 0 } = m := by
    simp only [cppIntCast]
    rw [htr, if_pos ⟨h1, h2⟩]
  rw [serializeNumber, hcast]
  rw [show ((m == m * pow10 0) = true) from by
    rw [show pow10 0 = 1 from rfl, mul_one]
    exact beq_self_eq_true m]
  rfl

lemma serializeValue_scalar : ∀ (v : Value), safeScalar v = true →
    ∀ (ind : Nat) (arr : Bool), Value.serializeValue v ind arr = scalarChars v
  | .nil, _, _, _ => rfl
  | .boolean b, _, _, _ => rfl
  | .number d, h, ind, arr => by
    simp only [safeScalar, Bool.and_eq_true, beq_iff_eq, decide_eq_true_eq] at h
    show serializeNumber d = intChars d.m
    exact serializeNumber_int_range d h.1.1 h.1.2 h.2
  | .str s, h, ind, arr => by
    rw [safeScalar] at h
    obtain ⟨hne, hall, _, _, _⟩ := safeWord_parts h
    show (if needsQuotes s then _ else s) = s
    rw [needsQuotes_letters s hne hall]
    rfl

/-- The value token a safe leaf scans back to, and the leaf `parseScalar_`
rebuilds from it. -/
lemma parseScalar_scalarTok (v : Value) (hs : safeScalar v = true)
    (p : PSt) (hty : p.cur.type = classifyScalar (scalarChars v))
    (hval : p.cur.value = scalarChars v)
    (p2 : PSt) (hadv : padvance p = .ok p2) :
    parseScalar p = .ok (v, p2) := by
  cases v with
  | nil =>
    rw [show classifyScalar (scalarChars .nil) = .TOKEN_NULL from rfl] at hty
    rw [parseScalar, hty]
    rw [hadv]
    rfl
  | boolean b =>
    have hcb : classifyScalar (scalarChars (.boolean b)) = .TOKEN_BOOLEAN := by
      cases b <;> rfl
    rw [hcb] at hty
    rw [parseScalar, hty]
    dsimp only
    rw [hadv, bind_ok_eq, hval]
    cases b <;> rfl
  | number d =>
    simp only [safeScalar, Bool.and_eq_true, beq_iff_eq, decide_eq_true_eq] at hs
    rw [show scalarChars (.number d) = intChars d.m from rfl] at hty hval
    rw [classify_intChars d.m] at hty
    rw [parseScalar, hty]
    dsimp only
    rw [hadv, bind_ok_eq, hval, parseDecimal_intChars d.m]
    have : ({ m := d.m, e := 0 } : Dec) = d := by
      obtain ⟨m, e⟩ := d
      dsimp only at hs
      rw [hs.1.1]
    rw [this]
  | str s =>
    rw [safeScalar] at hs
    rw [show scalarChars (.str s) = s from rfl] at hty hval
    rw [classify_safeWord hs] at hty
    rw [parseScalar, hty]
    dsimp only
    rw [hadv, bind_ok_eq, hval]
  | sequence items => exact Bool.noConfusion (show false = true from hs)
  | mapping es => exact Bool.noConfusion (show false = true from hs)


/-! #### Scanner steps over serialized text -/

lemma plainChar_ne {c : Char} (h : plainChar c = true) {sp : Char}
    (hsp : plainChar sp = false) : c ≠ sp := fun he => by
  rw [he] at h
  rw [h] at hsp
  exact Bool.noConfusion hsp

lemma ne_nil_of_isEmpty_false {l : List Char} (h : l.isEmpty = false) : l ≠ [] := by
  cases l with
  | nil => exact Bool.noConfusion h
  | cons x t => exact fun hc => List.noConfusion hc

lemma scalWord_cases {w : List Char} (hw : scalWord w = true) :
    (∃ tl, w = '-' :: tl ∧ tl ≠ [] ∧ tl.all plainChar = true) ∨
    (w ≠ [] ∧ w.all plainChar = true) := by
  rw [scalWord] at hw
  by_cases hh : w.head? = some '-'
  · rw [if_pos hh] at hw
    rw [Bool.and_eq_true, Bool.not_eq_true'] at hw
    left
    cases w with
    | nil => exact Option.noConfusion hh
    | cons c0 tl =>
      rw [List.head?_cons, Option.some.injEq] at hh
      simp only [List.tail_cons] at hw
      exact ⟨tl, by rw [hh], ne_nil_of_isEmpty_false hw.1, hw.2⟩
  · rw [if_neg hh] at hw
    rw [Bool.and_eq_true, Bool.not_eq_true'] at hw
    exact Or.inr ⟨ne_nil_of_isEmpty_false hw.1, hw.2⟩

lemma scalWord_ne_nil {w : List Char} (hw : scalWord w = true) : w ≠ [] := by
  rcases scalWord_cases hw with ⟨tl, rfl, _, _⟩ | ⟨h, _⟩
  · exact fun hc => List.noConfusion hc
  · exact h

lemma scalWord_no_space {w : List Char} (hw : scalWord w = true) :
    ∀ ch ∈ w, (decide (ch = ' ')) = false := by
  rcases scalWord_cases hw with ⟨tl, rfl, _, hall⟩ | ⟨_, hall⟩
  · intro ch hch
    rcases List.mem_cons.mp hch with rfl | hch
    · decide
    · exact decide_eq_false (plainChar_ne (List.all_eq_true.mp hall ch hch) (by decide))
  · intro ch hch
    exact decide_eq_false (plainChar_ne (List.all_eq_true.mp hall ch hch) (by decide))

lemma trim_no_space (w : List Char) (h : ∀ ch ∈ w, (decide (ch = ' ')) = false) :
    trimTrailingSpaces w = w := by
  rw [trimTrailingSpaces]
  have hd : w.reverse.dropWhile (fun ch => decide (ch = ' ')) = w.reverse := by
    rcases hrev : w.reverse with _ | ⟨c0, t⟩
    · rfl
    · rw [List.dropWhile_cons]
      have hc : c0 ∈ w := by
        rw [← List.mem_reverse, hrev]
        exact List.mem_cons_self c0 t
      rw [h c0 hc]
      rfl
  rw [hd, List.reverse_reverse]

lemma readScalar_plain : ∀ (w r : List Char) (l c : Int) (acc : List Char),
    w.all plainChar = true →
    (r = [] ∨ r.head? = some ':' ∨ r.head? = some '\n') →
    readScalar (w ++ r) l c acc = (acc ++ w, r, l, c + w.length)
  | [], r, l, c, acc, _, hr => by
    rw [List.nil_append]
    rcases hr with rfl | hr | hr
    · rw [readScalar]
      simp
    · rcases r with _ | ⟨c0, t⟩
      · exact Option.noConfusion hr
      · rw [List.head?_cons, Option.some.injEq] at hr
        subst hr
        rw [readScalar, if_pos (Or.inl rfl)]
        simp
    · rcases r with _ | ⟨c0, t⟩
      · exact Option.noConfusion hr
      · rw [List.head?_cons, Option.some.injEq] at hr
        subst hr
        rw [readScalar, if_pos (Or.inr (Or.inl rfl))]
        simp
  | c0 :: w', r, l, c, acc, hall, hr => by
    rw [List.all_cons, Bool.and_eq_true] at hall
    rw [List.cons_append, readScalar]
    rw [if_neg (by
      rintro (h | h | h | h | h | h | h | h) <;>
        exact plainChar_ne hall.1 (by decide) h)]
    rw [if_neg (fun hand => plainChar_ne hall.1 (by decide) hand.1)]
    rw [show advanceChar c0 l c = (l, c + 1) from by
      rw [advanceChar, if_neg (plainChar_ne hall.1 (by decide))]]
    dsimp only
    rw [readScalar_plain w' r l (c + 1) (acc ++ [c0]) hall.2 hr]
    simp only [Prod.mk.injEq, List.length_cons]
    refine ⟨(List.append_cons acc c0 w').symm, trivial, trivial, by push_cast; ring⟩

lemma readScalar_scal (w r : List Char) (l c : Int) (hw : scalWord w = true)
    (hr : r = [] ∨ r.head? = some ':' ∨ r.head? = some '\n') :
    readScalar (w ++ r) l c [] = (w, r, l, c + w.length) := by
  rcases scalWord_cases hw with ⟨tl, rfl, hne, hall⟩ | ⟨hne, hall⟩
  · obtain ⟨c1, tl', rfl⟩ := List.exists_cons_of_ne_nil hne
    have h1 : plainChar c1 = true := by
      rw [List.all_cons, Bool.and_eq_true] at hall
      exact hall.1
    rw [List.cons_append, readScalar]
    rw [if_neg (by rintro (h | h | h | h | h | h | h | h) <;> exact absurd h (by decide))]
    rw [if_neg (by
      rintro ⟨_, h | h | h⟩
      · rw [List.cons_append] at h
        exact List.noConfusion h
      · rw [List.cons_append, List.head?_cons, Option.some.injEq] at h
        exact plainChar_ne h1 (by decide) h
      · rw [List.cons_append, List.head?_cons, Option.some.injEq] at h
        exact plainChar_ne h1 (by decide) h)]
    rw [show advanceChar '-' l c = (l, c + 1) from rfl]
    dsimp only
    rw [show (([] : List Char) ++ ['-']) = ['-'] from rfl]
    rw [readScalar_plain (c1 :: tl') r l (c + 1) ['-'] hall hr]
    simp only [Prod.mk.injEq, List.singleton_append, List.length_cons]
    refine ⟨trivial, trivial, trivial, by push_cast; ring⟩
  · obtain ⟨c0, w', rfl⟩ := List.exists_cons_of_ne_nil hne
    have h := readScalar_plain (c0 :: w') r l c [] hall hr
    rw [List.nil_append] at h
    exact h

set_option maxHeartbeats 1000000 in
lemma charStep_scalar (w r : List Char) (l c : Int) (inds : List Nat) (pend : List Tok)
    (hw : scalWord w = true)
    (hr : r = [] ∨ r.head? = some ':' ∨ r.head? = some '\n') :
    charStep ⟨w ++ r, l, c, false, inds, pend⟩ =
      .yield (.ok (mkTok (classifyScalar w) w l (c + w.length),
        ⟨r, l, c + w.length, false, inds, pend⟩)) := by
  obtain ⟨c0, w', rfl⟩ := List.exists_cons_of_ne_nil (scalWord_ne_nil hw)
  have hrs : readScalar ((c0 :: w') ++ r) l c [] = (c0 :: w', r, l, c + ((c0 :: w').length : Int)) :=
    readScalar_scal _ r l c hw hr
  have htr : trimTrailingSpaces (c0 :: w') = c0 :: w' := trim_no_space _ (scalWord_no_space hw)
  have hc0 : plainChar c0 = true ∨ (c0 = '-' ∧ ∃ c1 w'', w' = c1 :: w'' ∧ plainChar c1 = true) := by
    rcases scalWord_cases hw with ⟨tl, he, hne, hall⟩ | ⟨_, hall⟩
    · right
      obtain ⟨hh, ht⟩ := List.cons.inj he
      subst ht
      obtain ⟨c1, w'', rfl⟩ := List.exists_cons_of_ne_nil hne
      rw [List.all_cons, Bool.and_eq_true] at hall
      exact ⟨hh, c1, w'', rfl, hall.1⟩
    · left
      rw [List.all_cons, Bool.and_eq_true] at hall
      exact hall.1
  rw [charStep.eq_def]
  simp only [List.cons_append]
  rw [if_neg (by
    rintro ⟨hs, _⟩
    rcases hc0 with h | ⟨rfl, _⟩
    · simp only [isSpace_, Bool.or_eq_true, decide_eq_true_eq] at hs
      rcases hs with (rfl | rfl) | rfl <;> exact absurd h (by decide)
    · exact Bool.noConfusion hs)]
  rw [if_neg (show ¬ c0 = '#' by
    rcases hc0 with h | ⟨rfl, _⟩
    · exact plainChar_ne h (by decide)
    · decide)]
  rw [if_neg (show ¬ c0 = '\n' by
    rcases hc0 with h | ⟨rfl, _⟩
    · exact plainChar_ne h (by decide)
    · decide)]
  rw [if_neg (show ¬ c0 = ':' by
    rcases hc0 with h | ⟨rfl, _⟩
    · exact plainChar_ne h (by decide)
    · decide)]
  rw [if_neg (by
    rintro ⟨hdash, hnx⟩
    rcases hc0 with h | ⟨rfl, c1, w'', rfl, hc1⟩
    · exact plainChar_ne h (by decide) hdash
    · rcases hnx with h | h | h
      · rw [List.cons_append] at h
        exact List.noConfusion h
      · rw [List.cons_append, List.head?_cons, Option.some.injEq] at h
        exact plainChar_ne hc1 (by decide) h
      · rw [List.cons_append, List.head?_cons, Option.some.injEq] at h
        exact plainChar_ne hc1 (by decide) h)]
  rw [if_neg (show ¬ c0 = '[' by
    rcases hc0 with h | ⟨rfl, _⟩
    · exact plainChar_ne h (by decide)
    · decide)]
  rw [if_neg (show ¬ c0 = ']' by
    rcases hc0 with h | ⟨rfl, _⟩
    · exact plainChar_ne h (by decide)
    · decide)]
  rw [if_neg (show ¬ c0 = '\x7b' by
    rcases hc0 with h | ⟨rfl, _⟩
    · exact plainChar_ne h (by decide)
    · decide)]
  rw [if_neg (show ¬ c0 = '\x7d' by
    rcases hc0 with h | ⟨rfl, _⟩
    · exact plainChar_ne h (by decide)
    · decide)]
  rw [if_neg (show ¬ c0 = ',' by
    rcases hc0 with h | ⟨rfl, _⟩
    · exact plainChar_ne h (by decide)
    · decide)]
  rw [if_neg (by
    rintro (h | h)
    · rcases hc0 with hp | ⟨rfl, _⟩
      · exact plainChar_ne hp (by decide) h
      · exact absurd h (by decide)
    · rcases hc0 with hp | ⟨rfl, _⟩
      · exact plainChar_ne hp (by decide) h
      · exact absurd h (by decide))]
  rw [← List.cons_append, hrs]
  dsimp only
  rw [htr]
  rw [if_neg (show ¬ (c0 :: w' : List Char) = [] from fun h => List.noConfusion h)]

lemma scanIter_not_bol (st : ScanSt) (h : st.rest ≠ []) (hb : st.bol = false) :
    scanIter st = charStep st := by
  rw [scanIter.eq_def]
  rcases hr : st.rest with _ | ⟨c0, tl⟩
  · exact absurd hr h
  · dsimp only
    rw [hb]
    rfl

lemma scanIter_bol0 (c0 : Char) (tl : List Char) (l c : Int)
    (h1 : c0 ≠ ' ') (h2 : c0 ≠ '\t') (h3 : c0 ≠ '\n') (h4 : c0 ≠ '#') :
    scanIter ⟨c0 :: tl, l, c, true, [0], []⟩ = charStep ⟨c0 :: tl, l, c, false, [0], []⟩ := by
  have hma : measureIndentAux (c0 :: tl) c 0 = (c0 :: tl, c, 0) := by
    rw [measureIndentAux, if_neg h1, if_neg h2]
  have hmi : measureIndent (c0 :: tl) c = (some 0, c0 :: tl, c) := by
    rw [measureIndent, hma]
    dsimp only
    rw [if_neg (by
      rintro (h | h | h)
      · exact List.noConfusion h
      · rw [List.head?_cons, Option.some.injEq] at h
        exact h3 h
      · rw [List.head?_cons, Option.some.injEq] at h
        exact h4 h)]
  rw [scanIter.eq_def]
  dsimp only
  rw [hmi]
  rfl

lemma nextTokAux_of_yield {st : ScanSt} {r : Except Err (Tok × ScanSt)}
    (h : scanIter st = .yield r) (fuel : Nat) : nextTokAux (fuel + 1) st = some r := by
  rw [nextTokAux, h]

lemma nextTokAux_of_next {st st2 : ScanSt} (h : scanIter st = .next st2) (fuel : Nat) :
    nextTokAux (fuel + 1) st = nextTokAux fuel st2 := by
  rw [nextTokAux, h]

lemma nextTok_of_yield {st : ScanSt} (hp : st.pending = []) {r : Except Err (Tok × ScanSt)}
    (h : scanIter st = .yield r) : nextTok st = some r := by
  rw [nextTok.eq_def, hp]
  exact nextTokAux_of_yield h (st.rest.length * 2 + 3)

lemma nextTok_of_skip {st st2 : ScanSt} (hp : st.pending = [])
    (h1 : scanIter st = .next st2) {r : Except Err (Tok × ScanSt)}
    (h2 : scanIter st2 = .yield r) : nextTok st = some r := by
  rw [nextTok.eq_def, hp]
  rw [show st.rest.length * 2 + 4 = (st.rest.length * 2 + 2) + 1 + 1 from rfl]
  rw [nextTokAux_of_next h1]
  exact nextTokAux_of_yield h2 (st.rest.length * 2 + 2)

lemma scnext_of_nextTok {st : ScanSt} {r : Except Err (Tok × ScanSt)}
    (h : nextTok st = some r) : scnext st = r := by
  rw [scnext, h]

/-- A plain scalar token read mid-line. -/
lemma scnext_scalar (w r : List Char) (l c : Int) (hw : scalWord w = true)
    (hr : r = [] ∨ r.head? = some ':' ∨ r.head? = some '\n') :
    scnext ⟨w ++ r, l, c, false, [0], []⟩ =
      .ok (mkTok (classifyScalar w) w l (c + w.length),
        ⟨r, l, c + w.length, false, [0], []⟩) := by
  apply scnext_of_nextTok
  apply nextTok_of_yield rfl
  rw [scanIter_not_bol _ (by
    obtain ⟨c0, w', rfl⟩ := List.exists_cons_of_ne_nil (scalWord_ne_nil hw)
    simp) rfl]
  exact charStep_scalar w r l c [0] [] hw hr

/-- A plain scalar token read at the beginning of a zero-indent line. -/
lemma scnext_bol_scalar (w r : List Char) (l c : Int) (hw : scalWord w = true)
    (hr : r = [] ∨ r.head? = some ':' ∨ r.head? = some '\n') :
    scnext ⟨w ++ r, l, c, true, [0], []⟩ =
      .ok (mkTok (classifyScalar w) w l (c + w.length),
        ⟨r, l, c + w.length, false, [0], []⟩) := by
  obtain ⟨c0, w', rfl⟩ := List.exists_cons_of_ne_nil (scalWord_ne_nil hw)
  have hc0 : plainChar c0 = true ∨ c0 = '-' := by
    rcases scalWord_cases hw with ⟨tl, he, _, _⟩ | ⟨_, hall⟩
    · exact Or.inr (List.cons.inj he).1
    · rw [List.all_cons, Bool.and_eq_true] at hall
      exact Or.inl hall.1
  apply scnext_of_nextTok
  apply nextTok_of_yield rfl
  rw [List.cons_append]
  have hne1 : c0 ≠ ' ' := by
    rcases hc0 with h | rfl
    · exact plainChar_ne h (by decide)
    · decide
  have hne2 : c0 ≠ '\t' := by
    rcases hc0 with h | rfl
    · exact plainChar_ne h (by decide)
    · decide
  have hne3 : c0 ≠ '\n' := by
    rcases hc0 with h | rfl
    · exact plainChar_ne h (by decide)
    · decide
  have hne4 : c0 ≠ '#' := by
    rcases hc0 with h | rfl
    · exact plainChar_ne h (by decide)
    · decide
  rw [scanIter_bol0 c0 (w' ++ r) l c hne1 hne2 hne3 hne4]
  rw [← List.cons_append]
  exact charStep_scalar (c0 :: w') r l c [0] [] hw hr

/-- A space, then a plain scalar token. -/
lemma scnext_space_scalar (w r : List Char) (l c : Int) (hw : scalWord w = true)
    (hr : r = [] ∨ r.head? = some ':' ∨ r.head? = some '\n') :
    scnext ⟨' ' :: (w ++ r), l, c, false, [0], []⟩ =
      .ok (mkTok (classifyScalar w) w l (c + 1 + w.length),
        ⟨r, l, c + 1 + w.length, false, [0], []⟩) := by
  apply scnext_of_nextTok
  apply nextTok_of_skip rfl
    (show scanIter ⟨' ' :: (w ++ r), l, c, false, [0], []⟩ =
      .next ⟨w ++ r, l, c + 1, false, [0], []⟩ from rfl)
  rw [scanIter_not_bol _ (by
    obtain ⟨c0, w', rfl⟩ := List.exists_cons_of_ne_nil (scalWord_ne_nil hw)
    simp) rfl]
  exact charStep_scalar w r l (c + 1) [0] [] hw hr

lemma scnext_colon (r : List Char) (l c : Int) :
    scnext ⟨':' :: r, l, c, false, [0], []⟩ =
      .ok (mkTok .TOKEN_COLON [] l (c + 1), ⟨r, l, c + 1, false, [0], []⟩) := rfl

lemma scnext_newline (r : List Char) (l c : Int) :
    scnext ⟨'\n' :: r, l, c, false, [0], []⟩ =
      .ok (mkTok .TOKEN_NEWLINE [] (l + 1) 1, ⟨r, l + 1, 1, true, [0], []⟩) := rfl

lemma scnext_dash_bol (r : List Char) (l c : Int) :
    scnext ⟨'-' :: ' ' :: r, l, c, true, [0], []⟩ =
      .ok (mkTok .TOKEN_DASH [] l (c + 1), ⟨' ' :: r, l, c + 1, false, [0], []⟩) := rfl

lemma scnext_eofB (l c : Int) (b : Bool) :
    scnext ⟨[], l, c, b, [0], []⟩ =
      .ok (mkTok .TOKEN_EOF [] l c, ⟨[], l, c, b, [0], []⟩) := rfl


/-! #### The serialized text of flat documents, tokenized -/

lemma plainChar_of_digit {c : Char} (h : isDigit_ c = true) : plainChar c = true := by
  rw [plainChar, h, Bool.or_true]

lemma plainChar_of_letter {c : Char} (h : letterChar c = true) : plainChar c = true := by
  rw [plainChar, h, Bool.true_or]

lemma all_plain_of_digits {w : List Char} (h : w.all isDigit_ = true) :
    w.all plainChar = true :=
  List.all_eq_true.mpr (fun c hc => plainChar_of_digit (List.all_eq_true.mp h c hc))

lemma scalWord_of_safeWord {w : List Char} (h : safeWord w = true) : scalWord w = true := by
  obtain ⟨hne, hall, _, _, _⟩ := safeWord_parts h
  obtain ⟨c0, w', rfl⟩ := List.exists_cons_of_ne_nil hne
  have hc0 : letterChar c0 = true := by
    rw [List.all_cons, Bool.and_eq_true] at hall
    exact hall.1
  rw [scalWord]
  rw [if_neg (by
    rw [List.head?_cons, Option.some.injEq]
    intro hc
    rw [hc] at hc0
    exact absurd hc0 (by decide))]
  rw [Bool.and_eq_true, Bool.not_eq_true']
  refine ⟨rfl, ?_⟩
  exact List.all_eq_true.mpr
    (fun c hc => plainChar_of_letter (List.all_eq_true.mp hall c hc))

lemma scalWord_scalarChars (v : Value) (hv : safeScalar v = true) :
    scalWord (scalarChars v) = true := by
  cases v with
  | nil => decide
  | boolean b => cases b <;> decide
  | number d =>
    show scalWord (intChars d.m) = true
    rw [intChars]
    by_cases hm : d.m < 0
    · rw [if_pos hm]
      rw [scalWord,
        if_pos (show (('-' :: natChars d.m.natAbs : List Char)).head? = some '-' from rfl)]
      simp only [List.tail_cons]
      rw [Bool.and_eq_true, Bool.not_eq_true']
      refine ⟨?_, all_plain_of_digits (natChars_digits _)⟩
      rcases hn : natChars d.m.natAbs with _ | ⟨x, t⟩
      · exact absurd hn (natChars_ne_nil _)
      · rfl
    · rw [if_neg hm]
      rw [scalWord]
      rw [if_neg (digit_head_ne_minus (natChars_ne_nil _) (natChars_digits _))]
      rw [Bool.and_eq_true, Bool.not_eq_true']
      refine ⟨?_, all_plain_of_digits (natChars_digits _)⟩
      rcases hn : natChars d.m.toNat with _ | ⟨x, t⟩
      · exact absurd hn (natChars_ne_nil _)
      · rfl
  | str s => exact scalWord_of_safeWord hv
  | sequence items => exact Bool.noConfusion (show false = true from hv)
  | mapping es => exact Bool.noConfusion (show false = true from hv)

lemma safeScalar_not_container {v : Value} (hv : safeScalar v = true) :
    v.isMapping = false ∧ v.isSequence = false := by
  cases v with
  | nil => exact ⟨rfl, rfl⟩
  | boolean b => exact ⟨rfl, rfl⟩
  | number d => exact ⟨rfl, rfl⟩
  | str s => exact ⟨rfl, rfl⟩
  | sequence items => exact Bool.noConfusion (show false = true from hv)
  | mapping es => exact Bool.noConfusion (show false = true from hv)

lemma serMap_cons_false (k : List Char) (v : Value) (tl : EntryList) :
    serMapEntries (.cons k v tl) 0 false false =
      '\n' :: serMapEntries (.cons k v tl) 0 false true := rfl

lemma serMap_entry_text (k : List Char) (v : Value) (tl : EntryList)
    (hv : safeScalar v = true) :
    serMapEntries (.cons k v tl) 0 false true =
      k ++ ':' :: ' ' :: (scalarChars v ++ serMapEntries tl 0 false false) := by
  obtain ⟨hm, hsq⟩ := safeScalar_not_container hv
  rw [serMapEntries]
  rw [serializeValue_scalar v hv 2 false]
  rw [hm, hsq]
  simp [List.append_assoc, spaces]

lemma serSeq_cons_false (v : Value) (tl : ValueList) :
    serSeqItems (.cons v tl) 0 false = '\n' :: serSeqItems (.cons v tl) 0 true := rfl

lemma serSeq_item_text (v : Value) (tl : ValueList) (hv : safeScalar v = true) :
    serSeqItems (.cons v tl) 0 true =
      '-' :: ' ' :: (scalarChars v ++ serSeqItems tl 0 false) := by
  rw [serSeqItems]
  rw [serializeValue_scalar v hv 2 true]
  simp [List.append_assoc, spaces]

lemma serMap_false_stopper (tl : EntryList) :
    serMapEntries tl 0 false false = [] ∨
      (serMapEntries tl 0 false false).head? = some ':' ∨
      (serMapEntries tl 0 false false).head? = some '\n' := by
  cases tl with
  | nil => exact Or.inl rfl
  | cons k v tl2 =>
    refine Or.inr (Or.inr ?_)
    rw [serMap_cons_false, List.head?_cons]

lemma serSeq_false_stopper (tl : ValueList) :
    serSeqItems tl 0 false = [] ∨ (serSeqItems tl 0 false).head? = some ':' ∨
      (serSeqItems tl 0 false).head? = some '\n' := by
  cases tl with
  | nil => exact Or.inl rfl
  | cons v tl2 =>
    refine Or.inr (Or.inr ?_)
    rw [serSeq_cons_false, List.head?_cons]

/-- Scanning one serialized mapping line after another: the expected
token stream comes out. -/
lemma ScDel_entries : ∀ (es : EntryList) (l : Int), safeEntries es = true →
    ScDel ⟨serMapEntries es 0 false true, l, 1, true, [0], []⟩ (entryToks es)
  | .nil, l, _ => ⟨l, 1, true, rfl⟩
  | .cons k v tl, l, hs => by
    rw [safeEntries.eq_def] at hs
    dsimp only at hs
    rw [Bool.and_eq_true, Bool.and_eq_true, Bool.and_eq_true] at hs
    have hk := hs.1.1.1
    have hv := hs.1.1.2
    have htl := hs.2
    rw [serMap_entry_text k v tl hv]
    refine ⟨_, _,
      scnext_bol_scalar k (':' :: ' ' :: (scalarChars v ++ serMapEntries tl 0 false false))
        l 1 (scalWord_of_safeWord hk) (Or.inr (Or.inl rfl)), classify_safeWord hk, rfl, ?_⟩
    refine ⟨_, _, scnext_colon _ l (1 + (k.length : Int)), rfl, rfl, ?_⟩
    refine ⟨_, _,
      scnext_space_scalar (scalarChars v) (serMapEntries tl 0 false false) l
        (1 + (k.length : Int) + 1) (scalWord_scalarChars v hv)
        (serMap_false_stopper tl), rfl, rfl, ?_⟩
    cases tl with
    | nil => exact ⟨l, _, false, rfl⟩
    | cons k2 v2 tl2 =>
      rw [serMap_cons_false]
      exact ⟨_, _, scnext_newline _ l _, rfl, rfl, ScDel_entries (.cons k2 v2 tl2) (l + 1) htl⟩

/-- Scanning the serialized sequence lines. -/
lemma ScDel_items : ∀ (items : ValueList) (l : Int), safeItems items = true →
    ScDel ⟨serSeqItems items 0 true, l, 1, true, [0], []⟩ (itemToks items)
  | .nil, l, _ => ⟨l, 1, true, rfl⟩
  | .cons v tl, l, hs => by
    rw [safeItems, Bool.and_eq_true] at hs
    rw [serSeq_item_text v tl hs.1]
    refine ⟨_, _, scnext_dash_bol _ l 1, rfl, rfl, ?_⟩
    refine ⟨_, _,
      scnext_space_scalar (scalarChars v) (serSeqItems tl 0 false) l 2
        (scalWord_scalarChars v hs.1) (serSeq_false_stopper tl), rfl, rfl, ?_⟩
    cases tl with
    | nil => exact ⟨l, _, false, rfl⟩
    | cons v2 tl2 =>
      rw [serSeq_cons_false]
      exact ⟨_, _, scnext_newline _ l _, rfl, rfl, ScDel_items (.cons v2 tl2) (l + 1) hs.2⟩

/-- Scanning a scalar document. -/
lemma ScDel_scalar (v : Value) (hv : safeScalar v = true) (l : Int) :
    ScDel ⟨scalarChars v, l, 1, true, [0], []⟩
      [(classifyScalar (scalarChars v), scalarChars v)] := by
  have h := scnext_bol_scalar (scalarChars v) [] l 1 (scalWord_scalarChars v hv) (Or.inl rfl)
  rw [List.append_nil] at h
  exact ⟨_, _, h, rfl, rfl, ⟨l, _, false, rfl⟩⟩

/-! #### The parser over a delivered token stream -/

lemma scnext_eofLike {st : ScanSt} (h : eofLike st) :
    ∃ l c, scnext st = .ok (mkTok .TOKEN_EOF [] l c, st) := by
  obtain ⟨l, c, b, rfl⟩ := h
  exact ⟨l, c, scnext_eofB l c b⟩

lemma PAt_step (p : PSt) (a : TokType × List Char) (ts : List (TokType × List Char))
    (h : PAt p (a :: ts)) : ∃ p2, padvance p = .ok p2 ∧ PAt p2 ts := by
  cases ts with
  | nil =>
    obtain ⟨h1, h2, h3, hsc⟩ := h
    obtain ⟨l, c, hs⟩ := scnext_eofLike hsc
    refine ⟨⟨p.sc, p.nxt, mkTok .TOKEN_EOF [] l c⟩, ?_, h3, rfl, hsc⟩
    rw [padvance, hs, bind_ok_eq]
  | cons b ts' =>
    cases ts' with
    | nil =>
      obtain ⟨h1, h2, h3, h4, hsc⟩ := h
      obtain ⟨l, c, hs⟩ := scnext_eofLike hsc
      refine ⟨⟨p.sc, p.nxt, mkTok .TOKEN_EOF [] l c⟩, ?_, h3, h4, rfl, hsc⟩
      rw [padvance, hs, bind_ok_eq]
    | cons c' ts'' =>
      obtain ⟨h1, h2, h3, h4, hsc⟩ := h
      obtain ⟨t, st2, hs, ht1, ht2, hrest⟩ := hsc
      refine ⟨⟨st2, p.nxt, t⟩, ?_, h3, h4, ht1, ht2, hrest⟩
      rw [padvance, hs, bind_ok_eq]

lemma initP_PAt (src : List Char) (ts : List (TokType × List Char))
    (h : ScDel (ScanSt.init src) ts) : ∃ p, initP src = .ok p ∧ PAt p ts := by
  cases ts with
  | nil =>
    obtain ⟨l, c, hs⟩ := scnext_eofLike h
    refine ⟨⟨ScanSt.init src, mkTok .TOKEN_EOF [] l c, mkTok .TOKEN_EOF [] l c⟩, ?_, rfl, rfl, h⟩
    rw [initP, hs, bind_ok_eq]
    show (do
      let d ← scnext (ScanSt.init src)
      match d with
      | (t2, sc2) =>
        Except.ok ({ sc := sc2, cur := mkTok .TOKEN_EOF [] l c, nxt := t2 } : PSt)) =
      Except.ok (⟨ScanSt.init src, mkTok .TOKEN_EOF [] l c, mkTok .TOKEN_EOF [] l c⟩ : PSt)
    rw [hs, bind_ok_eq]
  | cons a ts' =>
    obtain ⟨t, st2, hs, ht1, ht2, hrest⟩ := h
    cases ts' with
    | nil =>
      obtain ⟨l, c, hs2⟩ := scnext_eofLike hrest
      refine ⟨⟨st2, t, mkTok .TOKEN_EOF [] l c⟩, ?_, ht1, ht2, rfl, hrest⟩
      rw [initP, hs, bind_ok_eq]
      show (do
        let d ← scnext st2
        match d with
        | (t2, sc2) => Except.ok ({ sc := sc2, cur := t, nxt := t2 } : PSt)) =
        Except.ok { sc := st2, cur := t, nxt := mkTok .TOKEN_EOF [] l c }
      rw [hs2, bind_ok_eq]
    | cons b ts'' =>
      obtain ⟨t2, st3, hs2, ht21, ht22, hrest2⟩ := hrest
      refine ⟨⟨st3, t, t2⟩, ?_, ht1, ht2, ht21, ht22, hrest2⟩
      rw [initP, hs, bind_ok_eq]
      show (do
        let d ← scnext st2
        match d with
        | (t2x, sc2) => Except.ok ({ sc := sc2, cur := t, nxt := t2x } : PSt)) =
        Except.ok { sc := st3, cur := t, nxt := t2 }
      rw [hs2, bind_ok_eq]


/-! #### Parser steps -/

lemma parsers_skipNewlines (fuel : Nat) (p : PSt) :
    (parsers (fuel + 1)).skipNewlines p =
      (if p.cur.type = .TOKEN_NEWLINE then do
        let p2 ← padvance p
        (parsers fuel).skipNewlines p2
      else .ok p) := rfl

lemma parsers_skipDedents (fuel : Nat) (p : PSt) :
    (parsers (fuel + 1)).skipDedents p =
      (if p.cur.type = .TOKEN_DEDENT then do
        let p2 ← padvance p
        (parsers fuel).skipDedents p2
      else .ok p) := rfl

lemma parsers_value (fuel : Nat) (p : PSt) :
    (parsers (fuel + 1)).value p =
      (do
        let p ← (parsers fuel).skipNewlines p
        match p.cur.type with
        | .TOKEN_LBRACE => (parsers fuel).flowMap p
        | .TOKEN_LBRACKET => (parsers fuel).flowSeq p
        | .TOKEN_DASH => do
          let r ← (parsers fuel).seqLoop .nil p
          match r with
          | (items, p2) => .ok (.sequence items, p2)
        | .TOKEN_INDENT => do
          let p2 ← padvance p
          (parsers fuel).value p2
        | _ =>
          if p.cur.type = .TOKEN_STRING ∧ p.nxt.type = .TOKEN_COLON then do
            let r ← (parsers fuel).mappingLoop .nil p
            match r with
            | (entries, p2) => .ok (.mapping entries, p2)
          else
            parseScalar p) := rfl

lemma parsers_mappingLoop (fuel : Nat) (map : EntryList) (p : PSt) :
    (parsers (fuel + 1)).mappingLoop map p =
      (if p.cur.type = .TOKEN_STRING ∧ p.nxt.type = .TOKEN_COLON then do
        let p2 ← padvance p
        let p3 ← padvance p2
        let p4 ← (parsers fuel).skipNewlines p3
        let r ← (parsers fuel).value p4
        match r with
        | (v, p5) => do
          let p6 ← (parsers fuel).skipNewlines p5
          let p7 ← (parsers fuel).skipDedents p6
          (parsers fuel).mappingLoop (mapInsert map p.cur.value v) p7
      else .ok (map, p)) := rfl

lemma parsers_seqLoop (fuel : Nat) (seq : ValueList) (p : PSt) :
    (parsers (fuel + 1)).seqLoop seq p =
      (if p.cur.type = .TOKEN_DASH then do
        let p2 ← padvance p
        let r ← (parsers fuel).value p2
        match r with
        | (v, p3) => do
          let p4 ← (parsers fuel).skipNewlines p3
          (parsers fuel).seqLoop (seq.push v) p4
      else .ok (seq, p)) := rfl

lemma skipNewlines_none (fuel : Nat) (hf : 1 ≤ fuel) (p : PSt)
    (h : p.cur.type ≠ .TOKEN_NEWLINE) : (parsers fuel).skipNewlines p = .ok p := by
  obtain ⟨g, rfl⟩ : ∃ g, fuel = g + 1 := ⟨fuel - 1, by omega⟩
  rw [parsers_skipNewlines, if_neg h]

lemma skipDedents_none (fuel : Nat) (hf : 1 ≤ fuel) (p : PSt)
    (h : p.cur.type ≠ .TOKEN_DEDENT) : (parsers fuel).skipDedents p = .ok p := by
  obtain ⟨g, rfl⟩ : ∃ g, fuel = g + 1 := ⟨fuel - 1, by omega⟩
  rw [parsers_skipDedents, if_neg h]

lemma skipNewlines_once (fuel : Nat) (hf : 2 ≤ fuel) (p p2 : PSt)
    (h : p.cur.type = .TOKEN_NEWLINE) (hadv : padvance p = .ok p2)
    (h2 : p2.cur.type ≠ .TOKEN_NEWLINE) :
    (parsers fuel).skipNewlines p = .ok p2 := by
  obtain ⟨g, rfl⟩ : ∃ g, fuel = g + 1 := ⟨fuel - 1, by omega⟩
  rw [parsers_skipNewlines, if_pos h, hadv, bind_ok_eq]
  exact skipNewlines_none g (by omega) p2 h2

lemma classify_mem (s : List Char) :
    classifyScalar s = .TOKEN_BOOLEAN ∨ classifyScalar s = .TOKEN_NULL ∨
    classifyScalar s = .TOKEN_NUMBER ∨ classifyScalar s = .TOKEN_STRING := by
  rw [classifyScalar]
  split_ifs <;> simp

lemma classify_not_structural (s : List Char) :
    classifyScalar s ≠ .TOKEN_NEWLINE ∧ classifyScalar s ≠ .TOKEN_DEDENT ∧
    classifyScalar s ≠ .TOKEN_EOF ∧ classifyScalar s ≠ .TOKEN_COLON ∧
    classifyScalar s ≠ .TOKEN_INDENT := by
  rcases classify_mem s with h | h | h | h <;> rw [h] <;>
    exact ⟨by decide, by decide, by decide, by decide, by decide⟩

/-- `parseValue_` on a safe leaf's token: one `parseScalar_`. -/
lemma value_scalar (fuel : Nat) (hf : 2 ≤ fuel) (p p2 : PSt) (v : Value)
    (hs : safeScalar v = true)
    (hty : p.cur.type = classifyScalar (scalarChars v))
    (hval : p.cur.value = scalarChars v)
    (hnx : p.nxt.type ≠ .TOKEN_COLON)
    (hadv : padvance p = .ok p2) :
    (parsers fuel).value p = .ok (v, p2) := by
  obtain ⟨g, rfl, hg⟩ : ∃ g, fuel = g + 1 ∧ 1 ≤ g := ⟨fuel - 1, by omega, by omega⟩
  rw [parsers_value]
  rw [skipNewlines_none g hg p (by rw [hty]; exact (classify_not_structural _).1), bind_ok_eq]
  rcases classify_mem (scalarChars v) with hc | hc | hc | hc <;>
    (rw [hty, hc]
     dsimp only
     rw [if_neg (fun hand => hnx hand.2)]
     exact parseScalar_scalarTok v hs p hty hval p2 hadv)


/-- The loop of `parseMapping_` consumes the serialized entries of a flat
mapping, folding each through `mapInsert`. -/
lemma mappingLoop_run : ∀ (es map : EntryList) (p : PSt) (fuel : Nat),
    safeEntries es = true → PAt p (entryToks es) → es.length + 2 ≤ fuel →
    ∃ pE, (parsers fuel).mappingLoop map p = .ok (mapFold map es, pE) ∧ PAt pE []
  | .nil, map, p, fuel, _, hp, hf => by
    obtain ⟨g, rfl⟩ : ∃ g, fuel = g + 1 := ⟨fuel - 1, by omega⟩
    obtain ⟨h1, h2, h3⟩ := hp
    refine ⟨p, ?_, h1, h2, h3⟩
    rw [parsers_mappingLoop,
      if_neg (fun hand => TokType.noConfusion (h1.symm.trans hand.1))]
    rfl
  | .cons k v tl, map, p, fuel, hs, hp, hf => by
    have hlen : (EntryList.cons k v tl).length = tl.length + 1 := rfl
    rw [hlen] at hf
    obtain ⟨g, rfl, hg⟩ : ∃ g, fuel = g + 1 ∧ tl.length + 2 ≤ g :=
      ⟨fuel - 1, by omega, by omega⟩
    rw [safeEntries.eq_def] at hs
    dsimp only at hs
    rw [Bool.and_eq_true, Bool.and_eq_true, Bool.and_eq_true] at hs
    have hk := hs.1.1.1
    have hv := hs.1.1.2
    have htl := hs.2
    obtain ⟨p2, hadv1, hp2⟩ := PAt_step p _ _ hp
    obtain ⟨hc1, hc2, hn1, hn2, hsc⟩ := hp
    obtain ⟨p3, hadv2, hp3⟩ := PAt_step p2 _ _ hp2
    rw [parsers_mappingLoop, if_pos ⟨hc1, hn1⟩, hadv1, bind_ok_eq, hadv2, bind_ok_eq]
    cases tl with
    | nil =>
      obtain ⟨p4, hadv3, hp4⟩ := PAt_step p3 _ _ hp3
      obtain ⟨hv1, hv2, hnE, hscE⟩ := hp3
      obtain ⟨e1, e2, e3⟩ := hp4
      rw [skipNewlines_none g (by omega) p3
        (by rw [hv1]; exact (classify_not_structural _).1), bind_ok_eq]
      rw [value_scalar g (by omega) p3 p4 v hv hv1 hv2 (by rw [hnE]; decide) hadv3,
        bind_ok_eq]
      dsimp only
      rw [skipNewlines_none g (by omega) p4 (by rw [e1]; decide), bind_ok_eq]
      rw [skipDedents_none g (by omega) p4 (by rw [e1]; decide), bind_ok_eq]
      obtain ⟨g2, rfl⟩ : ∃ g2, g = g2 + 1 := ⟨g - 1, by omega⟩
      refine ⟨p4, ?_, e1, e2, e3⟩
      rw [parsers_mappingLoop,
        if_neg (fun hand => TokType.noConfusion (e1.symm.trans hand.1))]
      rw [hc2]
      rfl
    | cons k2 v2 tl2 =>
      obtain ⟨p4, hadv3, hp4⟩ := PAt_step p3 _ _ hp3
      obtain ⟨hv1, hv2, hnN1, hnN2, hsc3⟩ := hp3
      obtain ⟨p5, hadv4, hp5⟩ := PAt_step p4 _ _ hp4
      obtain ⟨h41, h42, h43, h44, hsc4⟩ := hp4
      have h51 : p5.cur.type = .TOKEN_STRING := by
        obtain ⟨x1, _⟩ := hp5
        exact x1
      rw [skipNewlines_none g (by omega) p3
        (by rw [hv1]; exact (classify_not_structural _).1), bind_ok_eq]
      rw [value_scalar g (by omega) p3 p4 v hv hv1 hv2 (by rw [hnN1]; decide) hadv3,
        bind_ok_eq]
      dsimp only
      rw [skipNewlines_once g (by omega) p4 p5 h41 hadv4 (by rw [h51]; decide), bind_ok_eq]
      rw [skipDedents_none g (by omega) p5 (by rw [h51]; decide), bind_ok_eq]
      obtain ⟨pE, hrun, hpe⟩ :=
        mappingLoop_run (.cons k2 v2 tl2) (mapInsert map k v) p5 g htl hp5 hg
      refine ⟨pE, ?_, hpe⟩
      rw [hc2]
      exact hrun

/-- The loop of `parseSequence_` consumes the serialized items of a flat
sequence, pushing each in order. -/
lemma seqLoop_run : ∀ (items seq : ValueList) (p : PSt) (fuel : Nat),
    safeItems items = true → PAt p (itemToks items) → items.length + 2 ≤ fuel →
    ∃ pE, (parsers fuel).seqLoop seq p = .ok (pushFold seq items, pE) ∧ PAt pE []
  | .nil, seq, p, fuel, _, hp, hf => by
    obtain ⟨g, rfl⟩ : ∃ g, fuel = g + 1 := ⟨fuel - 1, by omega⟩
    obtain ⟨h1, h2, h3⟩ := hp
    refine ⟨p, ?_, h1, h2, h3⟩
    rw [parsers_seqLoop, if_neg (fun hand => TokType.noConfusion (h1.symm.trans hand))]
    rfl
  | .cons v tl, seq, p, fuel, hs, hp, hf => by
    have hlen : (ValueList.cons v tl).length = tl.length + 1 := rfl
    rw [hlen] at hf
    obtain ⟨g, rfl, hg⟩ : ∃ g, fuel = g + 1 ∧ tl.length + 2 ≤ g :=
      ⟨fuel - 1, by omega, by omega⟩
    rw [safeItems, Bool.and_eq_true] at hs
    obtain ⟨p2, hadv1, hp2⟩ := PAt_step p _ _ hp
    obtain ⟨hd1, hd2, hx1, hx2, hsc⟩ := hp
    rw [parsers_seqLoop, if_pos hd1, hadv1, bind_ok_eq]
    cases tl with
    | nil =>
      obtain ⟨p3, hadv2, hp3⟩ := PAt_step p2 _ _ hp2
      obtain ⟨hv1, hv2, hnE, hscE⟩ := hp2
      obtain ⟨e1, e2, e3⟩ := hp3
      rw [value_scalar g (by omega) p2 p3 v hs.1 hv1 hv2 (by rw [hnE]; decide) hadv2,
        bind_ok_eq]
      dsimp only
      rw [skipNewlines_none g (by omega) p3 (by rw [e1]; decide), bind_ok_eq]
      obtain ⟨g2, rfl⟩ : ∃ g2, g = g2 + 1 := ⟨g - 1, by omega⟩
      refine ⟨p3, ?_, e1, e2, e3⟩
      rw [parsers_seqLoop, if_neg (fun hand => TokType.noConfusion (e1.symm.trans hand))]
      rfl
    | cons v2 tl2 =>
      obtain ⟨p3, hadv2, hp3⟩ := PAt_step p2 _ _ hp2
      obtain ⟨hv1, hv2, hnN1, hnN2, hsc3⟩ := hp2
      obtain ⟨p4, hadv3, hp4⟩ := PAt_step p3 _ _ hp3
      obtain ⟨h31, h32, h33, h34, hsc4⟩ := hp3
      have h41 : p4.cur.type = .TOKEN_DASH := by
        obtain ⟨x1, _⟩ := hp4
        exact x1
      rw [value_scalar g (by omega) p2 p3 v hs.1 hv1 hv2 (by rw [hnN1]; decide) hadv2,
        bind_ok_eq]
      dsimp only
      rw [skipNewlines_once g (by omega) p3 p4 h31 hadv3 (by rw [h41]; decide), bind_ok_eq]
      exact seqLoop_run (.cons v2 tl2) (seq.push v) p4 g hs.2 hp4 hg


lemma serSeq_len : ∀ (items : ValueList) (first : Bool),
    items.length ≤ (serSeqItems items 0 first).length
  | .nil, _ => Nat.zero_le _
  | .cons v tl, first => by
    have ih := serSeq_len tl false
    rw [serSeqItems]
    simp only [List.length_append, List.length_cons, ValueList.length]
    omega

lemma serMap_len : ∀ (es : EntryList) (first : Bool),
    es.length ≤ (serMapEntries es 0 false first).length
  | .nil, _ => Nat.zero_le _
  | .cons k v tl, first => by
    have ih := serMap_len tl false
    rw [serMapEntries]
    simp only [List.length_append, List.length_cons, EntryList.length]
    omega

lemma topSkip_no (fuel : Nat) (p : PSt)
    (h : ¬ (p.cur.type = .TOKEN_NEWLINE ∨ p.cur.type = .TOKEN_INDENT)) :
    topSkip (fuel + 1) p = .ok p := by
  rw [topSkip, if_neg h]

/-- A scalar document round-trips. -/
lemma parseYaml_scalar (v : Value) (hv : safeScalar v = true) :
    parseYaml (scalarChars v) = .ok v := by
  obtain ⟨p, hinit, hp⟩ := initP_PAt _ _ (ScDel_scalar v hv 1)
  obtain ⟨p2, hadv, hp2⟩ := PAt_step p _ _ hp
  obtain ⟨h1, h2, h3, h4⟩ := hp
  rw [parseYaml, hinit, bind_ok_eq, parseTop]
  rw [show (scalarChars v).length * 8 + 64 = ((scalarChars v).length * 8 + 63) + 1 from rfl]
  rw [topSkip_no _ p (by
    rintro (h | h)
    · exact (classify_not_structural (scalarChars v)).1 (h1.symm.trans h)
    · exact (classify_not_structural (scalarChars v)).2.2.2.2 (h1.symm.trans h))]
  rw [bind_ok_eq]
  rw [if_neg (fun h => (classify_not_structural (scalarChars v)).2.2.1 (h1.symm.trans h))]
  rw [value_scalar _ (by omega) p p2 v hv h1 h2 (by rw [h3]; decide) hadv, bind_ok_eq]

/-- C1 core: every flat safe document parses back from its serialization
to exactly itself. -/
lemma parseYaml_flat (t : Value) (ht : flatSafe t = true) :
    parseYaml (Value.serialize t) = .ok t := by
  cases t with
  | nil =>
    have hv : safeScalar .nil = true := ht
    rw [show Value.serialize .nil = scalarChars .nil from serializeValue_scalar .nil hv 0 false]
    exact parseYaml_scalar .nil hv
  | boolean b =>
    have hv : safeScalar (.boolean b) = true := ht
    rw [show Value.serialize (.boolean b) = scalarChars (.boolean b) from
      serializeValue_scalar (.boolean b) hv 0 false]
    exact parseYaml_scalar (.boolean b) hv
  | number d =>
    have hv : safeScalar (.number d) = true := ht
    rw [show Value.serialize (.number d) = scalarChars (.number d) from
      serializeValue_scalar (.number d) hv 0 false]
    exact parseYaml_scalar (.number d) hv
  | str sv =>
    have hv : safeScalar (.str sv) = true := ht
    rw [show Value.serialize (.str sv) = scalarChars (.str sv) from
      serializeValue_scalar (.str sv) hv 0 false]
    exact parseYaml_scalar (.str sv) hv
  | sequence items =>
    cases items with
    | nil => exact Bool.noConfusion (show false = true from ht)
    | cons v0 tl =>
      have hs : safeItems (.cons v0 tl) = true := ht
      rw [show Value.serialize (.sequence (.cons v0 tl)) =
        serSeqItems (.cons v0 tl) 0 true from rfl]
      obtain ⟨p, hinit, hp⟩ := initP_PAt _ _ (ScDel_items (.cons v0 tl) 1 hs)
      have hcur : p.cur.type = .TOKEN_DASH := by
        obtain ⟨x, _⟩ := hp
        exact x
      rw [parseYaml, hinit, bind_ok_eq, parseTop]
      rw [show (serSeqItems (.cons v0 tl) 0 true).length * 8 + 64 =
        ((serSeqItems (.cons v0 tl) 0 true).length * 8 + 63) + 1 from rfl]
      rw [topSkip_no _ p (by
        rintro (h | h) <;> (rw [hcur] at h; exact TokType.noConfusion h))]
      rw [bind_ok_eq]
      rw [if_neg (by rw [hcur]; decide)]
      rw [parsers_value]
      rw [skipNewlines_none _ (by omega) p (by rw [hcur]; decide), bind_ok_eq]
      rw [hcur]
      dsimp only
      obtain ⟨pE, hrun, hpe⟩ := seqLoop_run (.cons v0 tl) .nil p
        ((serSeqItems (.cons v0 tl) 0 true).length * 8 + 63) hs hp (by
          have hl1 := serSeq_len (.cons v0 tl) true
          have hl2 : (ValueList.cons v0 tl).length = tl.length + 1 := rfl
          omega)
      rw [hrun, bind_ok_eq]
      dsimp only
      rw [pushFold_eq]
      rfl
  | mapping es =>
    cases es with
    | nil => exact Bool.noConfusion (show false = true from ht)
    | cons k0 v0 tl =>
      have hs : safeEntries (.cons k0 v0 tl) = true := ht
      rw [show Value.serialize (.mapping (.cons k0 v0 tl)) =
        serMapEntries (.cons k0 v0 tl) 0 false true from rfl]
      obtain ⟨p, hinit, hp⟩ := initP_PAt _ _ (ScDel_entries (.cons k0 v0 tl) 1 hs)
      have hcur : p.cur.type = .TOKEN_STRING := by
        obtain ⟨x, _⟩ := hp
        exact x
      have hnxt : p.nxt.type = .TOKEN_COLON := by
        obtain ⟨_, _, x, _⟩ := hp
        exact x
      rw [parseYaml, hinit, bind_ok_eq, parseTop]
      rw [show (serMapEntries (.cons k0 v0 tl) 0 false true).length * 8 + 64 =
        ((serMapEntries (.cons k0 v0 tl) 0 false true).length * 8 + 63) + 1 from rfl]
      rw [topSkip_no _ p (by
        rintro (h | h) <;> (rw [hcur] at h; exact TokType.noConfusion h))]
      rw [bind_ok_eq]
      rw [if_neg (by rw [hcur]; decide)]
      rw [parsers_value]
      rw [skipNewlines_none _ (by omega) p (by rw [hcur]; decide), bind_ok_eq]
      rw [hcur]
      dsimp only
      rw [if_pos ⟨rfl, hnxt⟩]
      obtain ⟨pE, hrun, hpe⟩ := mappingLoop_run (.cons k0 v0 tl) .nil p
        ((serMapEntries (.cons k0 v0 tl) 0 false true).length * 8 + 63) hs hp (by
          have hl1 := serMap_len (.cons k0 v0 tl) true
          have hl2 : (EntryList.cons k0 v0 tl).length = tl.length + 1 := rfl
          omega)
      rw [hrun, bind_ok_eq]
      dsimp only
      rw [mapFold_sorted (.cons k0 v0 tl) .nil hs rfl]
      rfl


mutual

lemma yamlEq_refl : ∀ v : Value, Value.yamlEq v v = true
  | .nil => rfl
  | .boolean b => by
    show (b == b) = true
    exact beq_self_eq_true b
  | .number d => by
    show Dec.numEq d d = true
    rw [Dec.numEq]
    exact beq_self_eq_true _
  | .str s => by
    show (s == s) = true
    exact beq_self_eq_true s
  | .sequence a => yamlEqL_refl a
  | .mapping a => yamlEqM_refl a

lemma yamlEqL_refl : ∀ l : ValueList, Value.yamlEqL l l = true
  | .nil => rfl
  | .cons a as => by
    show (a.yamlEq a && Value.yamlEqL as as) = true
    rw [yamlEq_refl a, yamlEqL_refl as]
    rfl

lemma yamlEqM_refl : ∀ m : EntryList, Value.yamlEqM m m = true
  | .nil => rfl
  | .cons k a as => by
    show ((k == k) && a.yamlEq a && Value.yamlEqM as as) = true
    rw [beq_self_eq_true, yamlEq_refl a, yamlEqM_refl as]
    rfl

end

/-- C1 counterexample: the claim quantifies over every tree, but the
one-character string value `-` serializes unquoted (`needsQuotes` does
not cover a lone dash), and the text `-` scans as a DASH token, whose
sequence-item parse then finds no scalar: parsing the serialization
fails, so the round trip does not even start. -/
theorem roundtrip_cex :
    (Value.str ['-']).serialize = ['-'] ∧
    parseYaml ((Value.str ['-']).serialize) =
      .error { msg := "Expected scalar value".data, line := 1, col := 2 } :=
  ⟨rfl, rfl⟩

/-- C1 (amended): on the flat class — scalar documents, one-level
sequences and one-level mappings with plain lowercase-word keys in
ascending order and Nil/Boolean/in-int-range-integral-Number/plain-word
String leaves — parsing the serialized text succeeds and yields exactly
the original tree; hence the parsed tree re-serializes to the same text
and is `yamlEq`-equal to (any result of) parsing that text.  Outside
this class the claim fails (see the counterexample). -/
theorem roundtrip_flat :
    ∀ t : Value, flatSafe t = true →
      parseYaml (t.serialize) = .ok t ∧
      ∃ t2, parseYaml (t.serialize) = .ok t2 ∧ t2.serialize = t.serialize ∧
        ∀ t3, parseYaml (t.serialize) = .ok t3 → Value.yamlEq t2 t3 = true := by
  intro t ht
  have h := parseYaml_flat t ht
  refine ⟨h, t, h, rfl, ?_⟩
  intro t3 h3
  rw [h] at h3
  rw [← Except.ok.inj h3]
  exact yamlEq_refl t

/-- C1 witness: the flat mapping {age: 30, name: john} is in the class
and round-trips to itself. -/
theorem roundtrip_flat_witness :
    flatSafe (.mapping (.cons "age".data (.number { m := 30, e := 0 })
      (.cons "name".data (.str "john".data) .nil))) = true ∧
    parseYaml ((Value.mapping (.cons "age".data (.number { m := 30, e := 0 })
      (.cons "name".data (.str "john".data) .nil))).serialize) =
      .ok (.mapping (.cons "age".data (.number { m := 30, e := 0 })
        (.cons "name".data (.str "john".data) .nil))) :=
  ⟨by decide, (roundtrip_flat _ (by decide)).1⟩

/-! ### C3: key with no value -/

/-- C3 counterexample: when end of input comes immediately after the
key's colon, the parse fails with the missing-scalar error `Expected
scalar value` (the default branch of `parseScalar_`), not with the
missing-value error `Missing value after key` that the claim asserts for
this case (that message is raised only on a DEDENT). -/
theorem missing_value_eof_cex :
    parseYaml "key:".data =
      .error { msg := "Expected scalar value".data, line := 1, col := 5 } ∧
    "Expected scalar value".data ≠ "Missing value after key".data :=
  ⟨rfl, by decide⟩

/-- C3 (amended): a block-mapping key whose colon is followed by no value
always fails — never yielding a tree that maps the key to Nil — but the
two cases carry different errors: at end of input the missing-scalar
error `Expected scalar value`, and on a DEDENT the missing-value error
`Missing value after key`, each at the position of the offending token.
Shown on the two concrete inputs `key:` and `a:\n  b:`, and universally
at the parser level: `parseScalar_` on a DEDENT token raises the
missing-value error and on an EOF token the missing-scalar error, both
at the current token's position. -/
theorem missing_value_errors :
    parseYaml "key:".data =
      .error { msg := "Expected scalar value".data, line := 1, col := 5 } ∧
    parseYaml "a:\n  b:".data =
      .error { msg := "Missing value after key".data, line := 2, col := 5 } ∧
    (∀ p : PSt, p.cur.type = .TOKEN_DEDENT →
      parseScalar p =
        .error { msg := "Missing value after key".data, line := p.cur.line, col := p.cur.col }) ∧
    (∀ p : PSt, p.cur.type = .TOKEN_EOF →
      parseScalar p =
        .error { msg := "Expected scalar value".data, line := p.cur.line, col := p.cur.col }) ∧
    (∀ k : List Char, safeWord k = true →
      parseYaml (k ++ [':']) =
        .error { msg := "Expected scalar value".data, line := 1, col := (k.length : Int) + 2 }) := by
  refine ⟨rfl, rfl, ?_, ?_, ?_⟩
  · intro p h
    unfold parseScalar
    rw [h]
  · intro p h
    unfold parseScalar
    rw [h]
  · intro k hk
    have h1 := scnext_bol_scalar k [':'] 1 1 (scalWord_of_safeWord hk) (Or.inr (Or.inl rfl))
    rw [classify_safeWord hk] at h1
    have hinit : initP (k ++ [':']) =
        .ok ⟨⟨[], 1, 1 + (k.length : Int) + 1, false, [0], []⟩,
          mkTok .TOKEN_STRING k 1 (1 + (k.length : Int)),
          mkTok .TOKEN_COLON [] 1 (1 + (k.length : Int) + 1)⟩ := by
      rw [initP, show ScanSt.init (k ++ [':']) = ⟨k ++ [':'], 1, 1, true, [0], []⟩ from rfl,
        h1, bind_ok_eq]
      show (do
        let d ← scnext ⟨[':'], 1, 1 + (k.length : Int), false, [0], []⟩
        match d with
        | (t2, sc2) =>
          Except.ok (⟨sc2, mkTok .TOKEN_STRING k 1 (1 + (k.length : Int)), t2⟩ : PSt)) = _
      rw [scnext_colon [] 1 (1 + (k.length : Int)), bind_ok_eq]
    rw [show ((k.length : Int) + 2) = 1 + (k.length : Int) + 1 from by omega]
    rw [parseYaml, hinit, bind_ok_eq]
    rfl

/-- C3 witness: the two universal parts applied to concrete parser
states holding a DEDENT (resp. EOF) token at line 2 column 5 (resp. line
1 column 5). -/
theorem missing_value_errors_witness :
    parseScalar ⟨⟨[], 1, 1, false, [0], []⟩, mkTok .TOKEN_DEDENT [] 2 5, mkTok .TOKEN_EOF [] 2 5⟩ =
      .error { msg := "Missing value after key".data, line := 2, col := 5 } ∧
    parseScalar ⟨⟨[], 1, 1, false, [0], []⟩, mkTok .TOKEN_EOF [] 1 5, mkTok .TOKEN_EOF [] 1 5⟩ =
      .error { msg := "Expected scalar value".data, line := 1, col := 5 } ∧
    parseYaml ("akey".data ++ [':']) =
      .error { msg := "Expected scalar value".data, line := 1, col := 6 } :=
  ⟨missing_value_errors.2.2.1 _ rfl, missing_value_errors.2.2.2.1 _ rfl,
    missing_value_errors.2.2.2.2 "akey".data (by decide)⟩


end Y
